import Mathlib

/-!
Verification development for the `ellie` command-line chat client
(`src/main.rs` and `src/functions.rs`).

Rust strings are modelled as `List Char` (a Rust `String` is a sequence of
Unicode scalar values, exactly what `List Char` is in Lean).  Pure Rust
functions become Lean functions; fallible operations return `Option` or
`Except`; external effects (interactive confirmation, subprocess execution,
environment expansion, token counting) are passed in explicitly as oracle
arguments.
-/

namespace Ellie

/-- Rust `String` / `&str`, modelled as its sequence of Unicode scalar values. -/
abbrev Str := List Char

/-- Convenience injection of a Lean string literal into the model. -/
def lit (s : String) : Str := s.toList

/-- Rust `char::is_whitespace`: the Unicode `White_Space` property,
exactly the code points listed in the Unicode character database. -/
def rust_is_whitespace (c : Char) : Bool :=
  [0x09, 0x0A, 0x0B, 0x0C, 0x0D, 0x20, 0x85, 0xA0, 0x1680,
   0x2000, 0x2001, 0x2002, 0x2003, 0x2004, 0x2005, 0x2006, 0x2007,
   0x2008, 0x2009, 0x200A, 0x2028, 0x2029, 0x202F, 0x205F, 0x3000].contains c.toNat

/-- Rust `str::trim`: remove leading and trailing whitespace. -/
def trim (s : Str) : Str :=
  ((s.dropWhile rust_is_whitespace).reverse.dropWhile rust_is_whitespace).reverse

/-- The JSON value model of `serde_json::Value`.

Modelling note: numeric literals are modelled as integers (`Int`);
`serde_json` additionally parses decimal and exponent literals into IEEE-754
`f64` values, which are outside this embedding (see the development notes on
the normalizer). JSON text handled by the claims below only contains
integer numerals. -/
inductive Json where
  | null
  | bool (b : Bool)
  | num (n : Int)
  | str (s : Str)
  | arr (items : List Json)
  | obj (fields : List (Str × Json))

/-- JSON insignificant whitespace accepted between tokens by `serde_json`. -/
def json_ws (c : Char) : Bool :=
  c == ' ' || c == '\n' || c == '\t' || c == '\r'

/-- Drop insignificant whitespace. -/
def skip_ws (s : Str) : Str := s.dropWhile json_ws

/-- Lower-case hexadecimal digit, as used by `serde_json` string escapes. -/
def hex_digit (n : Nat) : Char :=
  if n < 10 then Char.ofNat ('0'.toNat + n) else Char.ofNat ('a'.toNat + n - 10)

/-- How `serde_json` escapes one character when serializing a string:
`"` and `\` get a backslash escape, control characters use the short
escapes `\b`, `\f`, `\n`, `\r`, `\t` when available and `\u00xx` otherwise,
and every other character is written as itself. -/
def escape_char (c : Char) : Str :=
  if c = '"' then ['\\', '"']
  else if c = '\\' then ['\\', '\\']
  else if c = '\x08' then ['\\', 'b']
  else if c = '\x0c' then ['\\', 'f']
  else if c = '\n' then ['\\', 'n']
  else if c = '\r' then ['\\', 'r']
  else if c = '\t' then ['\\', 't']
  else if c.toNat < 0x20 then
    ['\\', 'u', '0', '0', hex_digit (c.toNat / 16), hex_digit (c.toNat % 16)]
  else [c]

/-- Value of one hexadecimal digit character, if it is one. -/
def hex_val (c : Char) : Option Nat :=
  if '0' ≤ c ∧ c ≤ '9' then some (c.toNat - '0'.toNat)
  else if 'a' ≤ c ∧ c ≤ 'f' then some (c.toNat - 'a'.toNat + 10)
  else if 'A' ≤ c ∧ c ≤ 'F' then some (c.toNat - 'A'.toNat + 10)
  else none

/-- One decoded string-escape step of the JSON parser: decode the body of a
string literal up to (and consuming) the closing quote, returning the decoded
characters and the rest of the input.  Unescaped control characters and
malformed escapes are rejected, as `serde_json` does.  (`\uXXXX` escapes for
surrogate code units are outside the embedding and rejected.) -/
def parse_string_chars : Str → Option (Str × Str)
  | [] => none
  | '"' :: rest => some ([], rest)
  | '\\' :: rest =>
    match rest with
    | '"' :: r => (parse_string_chars r).map (fun (cs, t) => ('"' :: cs, t))
    | '\\' :: r => (parse_string_chars r).map (fun (cs, t) => ('\\' :: cs, t))
    | '/' :: r => (parse_string_chars r).map (fun (cs, t) => ('/' :: cs, t))
    | 'b' :: r => (parse_string_chars r).map (fun (cs, t) => ('\x08' :: cs, t))
    | 'f' :: r => (parse_string_chars r).map (fun (cs, t) => ('\x0c' :: cs, t))
    | 'n' :: r => (parse_string_chars r).map (fun (cs, t) => ('\n' :: cs, t))
    | 'r' :: r => (parse_string_chars r).map (fun (cs, t) => ('\r' :: cs, t))
    | 't' :: r => (parse_string_chars r).map (fun (cs, t) => ('\t' :: cs, t))
    | 'u' :: h1 :: h2 :: h3 :: h4 :: r =>
      match hex_val h1, hex_val h2, hex_val h3, hex_val h4 with
      | some a, some b, some c, some d =>
        let n := ((a * 16 + b) * 16 + c) * 16 + d
        if 0xD800 ≤ n ∧ n ≤ 0xDFFF then none
        else (parse_string_chars r).map (fun (cs, t) => (Char.ofNat n :: cs, t))
      | _, _, _, _ => none
    | _ => none
  | c :: rest =>
    if c.toNat < 0x20 then none
    else (parse_string_chars rest).map (fun (cs, t) => (c :: cs, t))

/-- Lexicographic comparison of strings (Rust `str::cmp`, which is bytewise
on UTF-8 and therefore agrees with scalar-value lexicographic order). -/
def str_lt : Str → Str → Bool
  | [], [] => false
  | [], _ :: _ => true
  | _ :: _, [] => false
  | a :: as, b :: bs => if a < b then true else if b < a then false else str_lt as bs

/-- Insertion into a `serde_json::Map` (a `BTreeMap` keyed by strings in the
default configuration): keys are kept in sorted order and inserting an
existing key replaces its value. -/
def insert_field : List (Str × Json) → Str → Json → List (Str × Json)
  | [], k, v => [(k, v)]
  | (k', v') :: rest, k, v =>
    if str_lt k k' then (k, v) :: (k', v') :: rest
    else if k = k' then (k, v) :: rest
    else (k', v') :: insert_field rest k v

/-- Digit characters consumed greedily from the front of the input. -/
def take_digits (s : Str) : Str × Str := s.span Char.isDigit

/-- Decimal value of a digit string. -/
def digits_val (ds : Str) : Nat :=
  ds.foldl (fun acc c => acc * 10 + (c.toNat - '0'.toNat)) 0

/-- Numeric-literal parser of the JSON parser: an optional minus sign followed
by either a single `0` or a nonzero-leading digit run (leading zeroes are
rejected, as `serde_json` does).  A following `.`, `e` or `E` would start an
IEEE-754 `f64` literal, which is outside the embedding and rejected here. -/
def parse_number (s : Str) : Option (Json × Str) :=
  let (neg, s1) := match s with
    | '-' :: r => (true, r)
    | _ => (false, s)
  match take_digits s1 with
  | ([], _) => none
  | (d :: ds, rest) =>
    if d = '0' ∧ ds ≠ [] then none
    else
      match rest with
      | '.' :: _ => none
      | 'e' :: _ => none
      | 'E' :: _ => none
      | _ =>
        let n : Int := Int.ofNat (digits_val (d :: ds))
        some (.num (if neg then -n else n), rest)

mutual

/-- Recursive-descent JSON value parser, modelling `serde_json::from_str`'s
grammar (with the numeric restriction noted on `Json`).  The input must start
with the first character of the value; the remaining input is returned.
`fuel` is recursion fuel; the top-level entry point supplies more fuel than
the parser can consume on its input. -/
def parse_value : Nat → Str → Option (Json × Str)
  | 0, _ => none
  | fuel + 1, s =>
    match s with
    | 'n' :: 'u' :: 'l' :: 'l' :: rest => some (.null, rest)
    | 't' :: 'r' :: 'u' :: 'e' :: rest => some (.bool true, rest)
    | 'f' :: 'a' :: 'l' :: 's' :: 'e' :: rest => some (.bool false, rest)
    | '"' :: rest => (parse_string_chars rest).map (fun (cs, t) => (.str cs, t))
    | '[' :: rest =>
      match skip_ws rest with
      | ']' :: r => some (.arr [], r)
      | r => parse_elements fuel r []
    | '{' :: rest =>
      match skip_ws rest with
      | '}' :: r => some (.obj [], r)
      | r => parse_members fuel r []
    | _ => parse_number s

/-- Comma-separated array elements, after the opening bracket (first element
pending), accumulating parsed elements in reverse. -/
def parse_elements : Nat → Str → List Json → Option (Json × Str)
  | 0, _, _ => none
  | fuel + 1, s, acc =>
    match parse_value fuel (skip_ws s) with
    | none => none
    | some (v, rest) =>
      match skip_ws rest with
      | ',' :: r => parse_elements fuel r (v :: acc)
      | ']' :: r => some (.arr (v :: acc).reverse, r)
      | _ => none

/-- Comma-separated object members, after the opening brace (first member
pending), accumulating members into a sorted map (`insert_field`), so that a
duplicate key keeps the last value, as `BTreeMap` insertion does. -/
def parse_members : Nat → Str → List (Str × Json) → Option (Json × Str)
  | 0, _, _ => none
  | fuel + 1, s, acc =>
    match skip_ws s with
    | '"' :: keyrest =>
      match parse_string_chars keyrest with
      | none => none
      | some (key, afterkey) =>
        match skip_ws afterkey with
        | ':' :: aftercolon =>
          match parse_value fuel (skip_ws aftercolon) with
          | none => none
          | some (v, rest) =>
            match skip_ws rest with
            | ',' :: r => parse_members fuel r (insert_field acc key v)
            | '}' :: r => some (.obj (insert_field acc key v), r)
            | _ => none
        | _ => none
    | _ => none

end

/-- Parser entry point modelling `serde_json::from_str::<serde_json::Value>`:
leading and trailing insignificant whitespace is allowed, and the whole input
must be consumed. -/
def parse_json (s : Str) : Option Json :=
  match parse_value (s.length + 1) (skip_ws s) with
  | some (v, rest) => if skip_ws rest = [] then some v else none
  | none => none

/-- String-literal serialization used by the renderer: opening quote, each
character escaped, closing quote. -/
def render_string (s : Str) : Str :=
  '"' :: s.foldr (fun c acc => escape_char c ++ acc) ['"']

mutual

/-- Compact serialization modelling `serde_json::to_string`: no insignificant
whitespace anywhere.  `fuel` is recursion fuel, strictly decreasing on every
recursive call; the entry point supplies more fuel than the recursion can
consume on its value. -/
def render_value : Nat → Json → Str
  | 0, _ => []
  | _ + 1, .null => lit "null"
  | _ + 1, .bool true => lit "true"
  | _ + 1, .bool false => lit "false"
  | _ + 1, .num n => (toString n).toList
  | _ + 1, .str s => render_string s
  | fuel + 1, .arr items => '[' :: render_items fuel items ++ [']']
  | fuel + 1, .obj fields => '{' :: render_fields fuel fields ++ ['}']

/-- Comma-separated compact serialization of array elements. -/
def render_items : Nat → List Json → Str
  | 0, _ => []
  | _ + 1, [] => []
  | fuel + 1, [v] => render_value fuel v
  | fuel + 1, v :: w :: rest => render_value fuel v ++ ',' :: render_items fuel (w :: rest)

/-- Comma-separated compact serialization of object members. -/
def render_fields : Nat → List (Str × Json) → Str
  | 0, _ => []
  | _ + 1, [] => []
  | fuel + 1, [(k, v)] => render_string k ++ ':' :: render_value fuel v
  | fuel + 1, (k, v) :: kv :: rest =>
    render_string k ++ ':' :: render_value fuel v ++ ',' :: render_fields fuel (kv :: rest)

end

/-- The compact-or-passthrough normalizer `try_compact_json` (identical in
`src/main.rs` and `src/functions.rs`): trim the input, try to parse it as
JSON and re-serialize it compactly, and fall back to the trimmed original
text when parsing fails.  The rendering fuel `t.length + 1` exceeds the
recursion depth of rendering any value parsed from `t`, since every parser
recursion step consumes at least one input character. -/
def try_compact_json (maybe_json : Str) : Str :=
  let t := trim maybe_json
  match parse_json t with
  | some v => render_value (t.length + 1) v
  | none => t

/-! ## Messages and the `src/main.rs` helpers -/

/-- Message roles of `async_openai::types::Role`. -/
inductive Role where
  | system
  | user
  | assistant
  | function
deriving DecidableEq

/-- The type `async_openai::types::FunctionCall`. -/
structure FunctionCall where
  name : Str
  arguments : Str
deriving DecidableEq

/-- The type `async_openai::types::ChatCompletionRequestMessage`. -/
structure Message where
  role : Role
  content : Option Str := none
  name : Option Str := none
  function_call : Option FunctionCall := none
deriving DecidableEq

/-- The function `create_function_call` in `src/main.rs`: trim the assembled
name and compact the assembled arguments text. -/
def create_function_call (name arguments : Str) : FunctionCall :=
  { name := trim name, arguments := try_compact_json arguments }

/-- The canned weather report hard-coded in `create_function_call_message`
(`src/main.rs`), standing in for real function execution (the source marks
this with a TODO comment). -/
def weather_report_content : Str :=
  lit "\x7b\"location\": \"Boston, MA\", \"temperature\": \"72\", \"unit\": null, \"forecast\": [\"sunny\", \"windy\"]\x7d"

/-- The function `create_function_call_message` in `src/main.rs`: instead of
invoking any function provider, the source builds a function-role message
carrying the requested name whose body is the compacted canned weather
report; the arguments parameter is ignored (it is spelled `_arguments` in the
source). -/
def create_function_call_message (name : Str) (_arguments : Str) : Message :=
  { role := .function
    name := some name
    content := some (try_compact_json weather_report_content) }

/-- The function `update_new_messages` in `src/main.rs`: append the assembled
assistant message; when it carries a function call (with absent or blank
content, the wire-compatibility placeholder), also append the function-role
message built by `create_function_call_message`.  The result `none` models
the `unreachable!` panic on any other message shape. -/
def update_new_messages (new_messages : List Message) (assistant_message : Message) :
    Option (List Message) :=
  match assistant_message with
  | { role := .assistant, name := none, content := some _, function_call := none } =>
    some (new_messages ++ [assistant_message])
  | { role := .assistant, name := none, content := content, function_call := some fc } =>
    if content.isNone || content.any (fun c => (trim c).isEmpty) then
      some (new_messages ++
        [assistant_message, create_function_call_message fc.name fc.arguments])
    else none
  | _ => none

/-! ## The streaming assembler (`create_assistant_message` in `src/main.rs`) -/

/-- The type `async_openai::types::FunctionCallStream`: both fields optional. -/
structure FunctionCallStream where
  name : Option Str := none
  arguments : Option Str := none
deriving DecidableEq

/-- One streamed choice delta
(`ChatCompletionResponseStreamMessage`): an optional role, an optional
content delta, an optional partial function call, and an optional finish
reason.  A chunked stream is flattened to its choice deltas in arrival
order. -/
structure Fragment where
  role : Option Role := none
  content : Option Str := none
  function_call : Option FunctionCallStream := none
  finish_reason : Option Str := none
deriving DecidableEq

/-- Protocol violations the assembler treats as fatal: a non-assistant role
(`ensure!`), a finish reason other than the three known ones
(`unreachable!`), and stream exhaustion without a finish reason
(`unreachable!`). -/
inductive AssembleError where
  | bad_role
  | bad_finish
  | missing_finish
deriving DecidableEq

/-- Buffer-threading core of `create_assistant_message` in `src/main.rs`:
process fragments in arrival order, maintaining the content buffer (appended
to by content deltas), the function-name buffer (overwritten by any present
name delta) and the function-arguments buffer (appended to by any present
arguments delta); a finish reason terminates assembly exactly as in the
source. -/
def assemble_from (content_buffer function_call_name function_call_arguments_buffer : Str) :
    List Fragment → Except AssembleError Message
  | [] => .error .missing_finish
  | frag :: rest =>
    if frag.role.any (fun r => decide (r ≠ Role.assistant)) then .error .bad_role
    else
      let content_buffer := content_buffer ++ frag.content.getD []
      let function_call_name :=
        match frag.function_call with
        | some fcs => fcs.name.getD function_call_name
        | none => function_call_name
      let function_call_arguments_buffer :=
        function_call_arguments_buffer ++
          (match frag.function_call with
           | some fcs => fcs.arguments.getD []
           | none => [])
      match frag.finish_reason with
      | some r =>
        if r = lit "stop" ∨ r = lit "length" then
          .ok { role := .assistant, content := some (trim content_buffer) }
        else if r = lit "function_call" then
          .ok { role := .assistant
                content := some []
                function_call :=
                  some (create_function_call function_call_name
                    function_call_arguments_buffer) }
        else .error .bad_finish
      | none => assemble_from content_buffer function_call_name function_call_arguments_buffer rest

/-- The function `create_assistant_message` in `src/main.rs`, as a function
of the ordered fragment sequence (transport errors and the live stdout sink
are outside the assembled-message model). -/
def create_assistant_message (fragments : List Fragment) : Except AssembleError Message :=
  assemble_from [] [] [] fragments

/-- Concatenation, in arrival order, of all content deltas of a fragment
sequence. -/
def content_deltas (frags : List Fragment) : Str :=
  (frags.map (fun f => f.content.getD [])).flatten

/-- Concatenation, in arrival order, of all function-call argument deltas of
a fragment sequence. -/
def argument_deltas (frags : List Fragment) : Str :=
  (frags.map (fun f => (f.function_call.bind FunctionCallStream.arguments).getD [])).flatten

/-- Final value of the function-name buffer over a fragment sequence: the
last present name delta, or `init` when no fragment carries one. -/
def last_name_delta (init : Str) (frags : List Fragment) : Str :=
  frags.foldl (fun acc f => (f.function_call.bind FunctionCallStream.name).getD acc) init

/-- The last function-call name delta that is present and a non-empty string,
the quantity named by the claim about function-call assembly. -/
def last_nonempty_name_delta (frags : List Fragment) : Option Str :=
  ((frags.filterMap (fun f => f.function_call.bind FunctionCallStream.name)).filter
    (fun n => !n.isEmpty)).getLast?

theorem content_deltas_cons (f : Fragment) (l : List Fragment) :
    content_deltas (f :: l) = f.content.getD [] ++ content_deltas l := by
  simp [content_deltas]

theorem content_deltas_append (l1 l2 : List Fragment) :
    content_deltas (l1 ++ l2) = content_deltas l1 ++ content_deltas l2 := by
  simp [content_deltas]

theorem argument_deltas_cons (f : Fragment) (l : List Fragment) :
    argument_deltas (f :: l) =
      (f.function_call.bind FunctionCallStream.arguments).getD [] ++ argument_deltas l := by
  simp [argument_deltas]

theorem argument_deltas_append (l1 l2 : List Fragment) :
    argument_deltas (l1 ++ l2) = argument_deltas l1 ++ argument_deltas l2 := by
  simp [argument_deltas]

theorem last_name_delta_cons (init : Str) (f : Fragment) (l : List Fragment) :
    last_name_delta init (f :: l) =
      last_name_delta ((f.function_call.bind FunctionCallStream.name).getD init) l := rfl

theorem last_name_delta_append (init : Str) (l1 l2 : List Fragment) :
    last_name_delta init (l1 ++ l2) = last_name_delta (last_name_delta init l1) l2 := by
  simp [last_name_delta]

theorem name_buffer_update_eq (fc : Option FunctionCallStream) (n : Str) :
    (match fc with
     | some fcs => fcs.name.getD n
     | none => n) = (fc.bind FunctionCallStream.name).getD n := by
  cases fc with
  | none => rfl
  | some fcs => rfl

theorem arguments_buffer_update_eq (fc : Option FunctionCallStream) :
    (match fc with
     | some fcs => fcs.arguments.getD []
     | none => ([] : Str)) = (fc.bind FunctionCallStream.arguments).getD [] := by
  cases fc with
  | none => rfl
  | some fcs => rfl

/-- Threading lemma for the assembler: a prefix of fragments that carry no
finish reason and no foreign role only accumulates into the three buffers. -/
theorem assemble_from_append (body : List Fragment)
    (hfin : ∀ f ∈ body, f.finish_reason = none)
    (hroles : ∀ f ∈ body, ∀ r, f.role = some r → r = Role.assistant) :
    ∀ (c n a : Str) (rest : List Fragment),
      assemble_from c n a (body ++ rest) =
        assemble_from (c ++ content_deltas body) (last_name_delta n body)
          (a ++ argument_deltas body) rest := by
  induction body with
  | nil =>
    intro c n a rest
    simp [content_deltas, argument_deltas, last_name_delta]
  | cons f body ih =>
    intro c n a rest
    have hrole : f.role.any (fun r => decide (r ≠ Role.assistant)) = false := by
      cases h : f.role with
      | none => rfl
      | some r =>
        have hr := hroles f (by simp) r h
        simp [Option.any, hr]
    have hf : f.finish_reason = none := hfin f (by simp)
    have step :
        assemble_from c n a ((f :: body) ++ rest) =
          assemble_from (c ++ f.content.getD [])
            ((f.function_call.bind FunctionCallStream.name).getD n)
            (a ++ (f.function_call.bind FunctionCallStream.arguments).getD [])
            (body ++ rest) := by
      rw [List.cons_append]
      simp only [assemble_from, hrole, Bool.false_eq_true, if_false, hf,
        name_buffer_update_eq, arguments_buffer_update_eq]
    rw [step,
      ih (fun g hg => hfin g (List.mem_cons_of_mem f hg))
        (fun g hg r hr => hroles g (List.mem_cons_of_mem f hg) r hr),
      content_deltas_cons, argument_deltas_cons, last_name_delta_cons,
      List.append_assoc, List.append_assoc]

/-! ## Claims C3 and C4: the streaming assembler -/

/-- C3 (confirmed): for every fragment sequence whose terminal fragment — the
only one carrying a finish reason, per the remote-service contract — finishes
with "stop" or "length", and whose declared roles are all the assistant role,
the assembler returns an assistant message with no function_call and with
content equal to the trimmed concatenation, in arrival order, of all content
deltas in the sequence. -/
theorem assembler_stop_length_collects_content
    (body : List Fragment) (final : Fragment) (r : Str)
    (hbody_fin : ∀ f ∈ body, f.finish_reason = none)
    (hroles : ∀ f ∈ body ++ [final], ∀ ro, f.role = some ro → ro = Role.assistant)
    (hfin : final.finish_reason = some r)
    (hr : r = lit "stop" ∨ r = lit "length") :
    create_assistant_message (body ++ [final]) =
      .ok { role := .assistant
            content := some (trim (content_deltas (body ++ [final])))
            name := none
            function_call := none } := by
  unfold create_assistant_message
  rw [assemble_from_append body hbody_fin
    (fun f hf ro hro => hroles f (List.mem_append_left _ hf) ro hro)]
  have hrole : final.role.any (fun ro => decide (ro ≠ Role.assistant)) = false := by
    cases h : final.role with
    | none => rfl
    | some ro =>
      have hra := hroles final (by simp) ro h
      simp [Option.any, hra]
  simp only [assemble_from, hrole, Bool.false_eq_true, if_false, hfin]
  rw [if_pos hr]
  simp [content_deltas_append, content_deltas_cons, content_deltas]

/-- Witness for C3 at a concrete two-fragment stream. -/
theorem assembler_stop_length_collects_content_witness :
    create_assistant_message
        [{ role := some .assistant, content := some (lit "  Hel") },
         { content := some (lit "lo  "), finish_reason := some (lit "stop") }] =
      .ok { role := .assistant
            content := some (lit "Hello")
            name := none
            function_call := none } := by
  have h := assembler_stop_length_collects_content
    [{ role := some .assistant, content := some (lit "  Hel") }]
    { content := some (lit "lo  "), finish_reason := some (lit "stop") }
    (lit "stop")
    (by intro f hf; simp at hf; subst hf; rfl)
    (by intro f hf ro hro; simp at hf
        rcases hf with h1 | h1 <;> subst h1 <;> simp_all)
    rfl (Or.inl rfl)
  exact h

/-- The statement of claim C4 exactly as written: the assembled
function-call message carries the trimmed last non-empty name delta as its
function name (alongside the empty-placeholder content and the compacted
argument concatenation). -/
def claim_c4 : Prop :=
  ∀ (body : List Fragment) (final : Fragment),
    (∀ f ∈ body, f.finish_reason = none) →
    (∀ f ∈ body ++ [final], ∀ ro, f.role = some ro → ro = Role.assistant) →
    final.finish_reason = some (lit "function_call") →
    ∀ nd, last_nonempty_name_delta (body ++ [final]) = some nd →
    create_assistant_message (body ++ [final]) =
      .ok { role := .assistant
            content := some []
            name := none
            function_call :=
              some { name := trim nd
                     arguments := try_compact_json (argument_deltas (body ++ [final])) } }

/-- Counterexample for C4 as stated: when a later fragment carries a present
but empty name delta, the assembler's name buffer is overwritten with the
empty string, while the last non-empty name delta is still "f".  The code
returns the empty function name, not the trimmed "f" the claim requires. -/
theorem assembler_function_call_claim_counterexample : ¬ claim_c4 := by
  intro h
  have h2 := h
    [{ function_call := some { name := some (lit "f"), arguments := none } }]
    { function_call := some { name := some [], arguments := none }
      finish_reason := some (lit "function_call") }
    (by intro f hf; simp at hf; subst hf; rfl)
    (by intro f hf ro hro
        simp at hf
        rcases hf with h1 | h1 <;> subst h1 <;> simp_all)
    rfl (lit "f") (by rfl)
  have hcomp :
      create_assistant_message
          [{ function_call := some { name := some (lit "f"), arguments := none } },
           { function_call := some { name := some [], arguments := none }
             finish_reason := some (lit "function_call") }] =
        .ok { role := .assistant
              content := some []
              name := none
              function_call := some { name := [], arguments := [] } } := rfl
  have h3 := h2.symm.trans hcomp
  simp [lit] at h3
  exact absurd h3.1 (by decide)

/-- C4 as amended (the assembled function name is the trimmed value of the
last *present* name delta — a present empty delta also overwrites — and the
empty string when no name delta arrived at all): for every fragment sequence
whose terminal fragment is the only one carrying a finish reason, with
"function_call" as that reason and with all declared roles the assistant
role, the assembler returns an assistant message whose content is the empty
placeholder, whose function-call name is the trimmed final name buffer and
whose arguments are the compacted concatenation, in arrival order, of all
argument deltas. -/
theorem assembler_function_call_shape
    (body : List Fragment) (final : Fragment)
    (hbody_fin : ∀ f ∈ body, f.finish_reason = none)
    (hroles : ∀ f ∈ body ++ [final], ∀ ro, f.role = some ro → ro = Role.assistant)
    (hfin : final.finish_reason = some (lit "function_call")) :
    create_assistant_message (body ++ [final]) =
      .ok { role := .assistant
            content := some []
            name := none
            function_call :=
              some { name := trim (last_name_delta [] (body ++ [final]))
                     arguments := try_compact_json (argument_deltas (body ++ [final])) } } := by
  unfold create_assistant_message
  rw [assemble_from_append body hbody_fin
    (fun f hf ro hro => hroles f (List.mem_append_left _ hf) ro hro)]
  have hrole : final.role.any (fun ro => decide (ro ≠ Role.assistant)) = false := by
    cases h : final.role with
    | none => rfl
    | some ro =>
      have hra := hroles final (by simp) ro h
      simp [Option.any, hra]
  simp only [assemble_from, hrole, Bool.false_eq_true, if_false, hfin,
    name_buffer_update_eq, arguments_buffer_update_eq]
  simp [create_function_call, last_name_delta_append, last_name_delta_cons,
    argument_deltas_append, argument_deltas_cons, argument_deltas, last_name_delta]
  exact ⟨by decide, by decide⟩

/-- Witness for the amended C4 at a concrete three-fragment stream. -/
theorem assembler_function_call_shape_witness :
    create_assistant_message
        [{ role := some .assistant
           function_call := some { name := some (lit " get_current_weather "), arguments := none } },
         { function_call := some { arguments := some (lit " \x7b\"location\":") } },
         { function_call := some { arguments := some (lit " \"Boston, MA\"\x7d ") }
           finish_reason := some (lit "function_call") }] =
      .ok { role := .assistant
            content := some []
            name := none
            function_call :=
              some { name := lit "get_current_weather"
                     arguments := lit "\x7b\"location\":\"Boston, MA\"\x7d" } } := by
  have h := assembler_function_call_shape
    [{ role := some .assistant
       function_call := some { name := some (lit " get_current_weather "), arguments := none } },
     { function_call := some { arguments := some (lit " \x7b\"location\":") } }]
    { function_call := some { arguments := some (lit " \"Boston, MA\"\x7d ") }
      finish_reason := some (lit "function_call") }
    (by intro f hf
        simp at hf
        rcases hf with h1 | h1 <;> subst h1 <;> rfl)
    (by intro f hf ro hro
        simp at hf
        rcases hf with h1 | h1 | h1 <;> subst h1 <;> simp_all)
    rfl
  exact h

/-! ## Requests (`create_request` in `src/main.rs`) and claims C1, C5 -/

/-- The available models, sorted by price (`MODELS` in `src/main.rs`). -/
def MODELS : List Str :=
  [lit "gpt-3.5-turbo", lit "gpt-3.5-turbo-16k", lit "gpt-4", lit "gpt-4-32k"]

/-- A function specification
(`async_openai::types::ChatCompletionFunctions`): a name, an optional
description and optional JSON-schema parameters. -/
structure ChatCompletionFunctions where
  name : Str
  description : Option Str := none
  parameters : Option Json := none

/-- The single hard-coded function specification that `create_request`
(`src/main.rs`) attaches to every request (the source marks actual
specifications as a TODO). -/
def get_current_weather_spec : ChatCompletionFunctions :=
  { name := lit "get_current_weather"
    description := some (lit "Get the current weather in a given location")
    parameters := some (.obj
      [(lit "type", .str (lit "object")),
       (lit "properties", .obj
         [(lit "location", .obj
            [(lit "type", .str (lit "string")),
             (lit "description", .str (lit "The city and state, e.g. San Francisco, CA"))]),
          (lit "unit", .obj
            [(lit "type", .str (lit "string")),
             (lit "enum", .arr [.str (lit "celsius"), .str (lit "fahrenheit")])])]),
       (lit "required", .arr [.str (lit "location")])]) }

/-- An outgoing request (`CreateChatCompletionRequest`), with the fields the
builder in `create_request` sets.  The temperature constant `0.0_f32` is
exactly representable and modelled as the number 0. -/
structure Request where
  temperature : Nat
  model : Str
  messages : List Message
  functions : List ChatCompletionFunctions

/-- The constant `TEMPERATURE` in `src/main.rs`. -/
def TEMPERATURE : Nat := 0

/-- The functions `messages_fit_model` and `choose_model` in `src/main.rs`:
token counting is delegated to the external tiktoken collaborator, modelled
as the oracle `fits`; `choose_model` returns the first (cheapest) model the
oracle accepts. -/
def choose_model (fits : Str → List Message → Bool) (messages : List Message) : Option Str :=
  MODELS.find? (fun model => fits model messages)

/-- The function `create_request` in `src/main.rs`: fixed temperature, the
given messages as the window, the chosen model, and — unconditionally — the
single hard-coded `get_current_weather` specification.  `none` models the
"choosing model" failure. -/
def create_request (fits : Str → List Message → Bool) (messages : List Message) :
    Option Request :=
  (choose_model fits messages).map (fun model =>
    { temperature := TEMPERATURE
      model := model
      messages := messages
      functions := [get_current_weather_spec] })

/-- C5 (code bug): evaluating `create_request` on a concrete window under an
oracle that accepts every model shows that the request does fix temperature 0
and carry the window as messages, but attaches only the hard-coded
`get_current_weather` specification — no provider registry is consulted
(`Functions::specifications` in `src/functions.rs` is never called from the
loop; the source marks the wiring as a TODO). -/
theorem create_request_ignores_registry :
    create_request (fun _ _ => true)
        [{ role := .user, content := some (lit "What is the weather in Boston?") }] =
      some { temperature := 0
             model := lit "gpt-3.5-turbo"
             messages := [{ role := .user, content := some (lit "What is the weather in Boston?") }]
             functions := [get_current_weather_spec] } := rfl

/-- C1 (code bug): evaluating one conversation-loop append step on an
assembled function-call message shows that the appended function-role
message carries the requested name but a canned body — the compacted
hard-coded weather report — regardless of the call's arguments, instead of
the wrapped outcome of invoking the Approval Gate + Executor
(`Functions::call` in `src/functions.rs` is never invoked; the source marks
this with a TODO).  The same canned body appears for two entirely different
argument texts. -/
theorem update_new_messages_appends_canned_result :
    (update_new_messages
        [{ role := .user, content := some (lit "What is the weather in Boston?") }]
        { role := .assistant
          content := some []
          function_call := some { name := lit "get_current_weather"
                                  arguments := lit "\x7b\"location\": \"Boston, MA\"\x7d" } } =
      some [{ role := .user, content := some (lit "What is the weather in Boston?") },
            { role := .assistant
              content := some []
              function_call := some { name := lit "get_current_weather"
                                      arguments := lit "\x7b\"location\": \"Boston, MA\"\x7d" } },
            { role := .function
              content := some (lit "\x7b\"forecast\":[\"sunny\",\"windy\"],\"location\":\"Boston, MA\",\"temperature\":\"72\",\"unit\":null\x7d")
              name := some (lit "get_current_weather") }]) ∧
    (update_new_messages []
        { role := .assistant
          content := some []
          function_call := some { name := lit "run_shell_command"
                                  arguments := lit "\x7b\"command\": \"reboot\"\x7d" } } =
      some [{ role := .assistant
              content := some []
              function_call := some { name := lit "run_shell_command"
                                      arguments := lit "\x7b\"command\": \"reboot\"\x7d" } },
            { role := .function
              content := some (lit "\x7b\"forecast\":[\"sunny\",\"windy\"],\"location\":\"Boston, MA\",\"temperature\":\"72\",\"unit\":null\x7d")
              name := some (lit "run_shell_command") }]) :=
  ⟨rfl, rfl⟩

/-! ## The conversation loop (`main` in `src/main.rs`) and claim C10 -/

/-- Outcome of running the conversation loop with bounded fuel: the loop
either reaches a state whose last message has the assistant role (`done`),
exhausts the given fuel (`out_of_fuel`; the real loop simply keeps
iterating), or hits the `unreachable!` inside `update_new_messages`
(`stuck`). -/
inductive LoopResult where
  | done (messages : List Message)
  | out_of_fuel (messages : List Message)
  | stuck (messages : List Message)
deriving DecidableEq

/-- The `while` loop of `main` in `src/main.rs`: while the last message's
role is not the assistant role, obtain an assembled assistant message (the
composition of request building, sending and `create_assistant_message`,
modelled by the oracle `assembled` as a function of the current
conversation) and append through `update_new_messages`.  The loop is only
ever entered on a nonempty conversation (it starts from the user message). -/
def run_loop (assembled : List Message → Message) : Nat → List Message → LoopResult
  | 0, messages => .out_of_fuel messages
  | fuel + 1, messages =>
    if messages.getLast?.any (fun m => decide (m.role = Role.assistant)) then .done messages
    else
      match update_new_messages messages (assembled messages) with
      | some messages' => run_loop assembled fuel messages'
      | none => .stuck messages

/-- The shape of every message the streaming assembler can return: assistant
role, no name, and either plain content without a function call or the
empty-placeholder content with one. -/
def assembler_shape (m : Message) : Prop :=
  m.role = Role.assistant ∧ m.name = none ∧
    ((∃ c, m.content = some c ∧ m.function_call = none) ∨
     (m.content = some [] ∧ ∃ fc, m.function_call = some fc))

/-- Every successfully assembled message has the assembler shape. -/
theorem assemble_from_shape :
    ∀ (frags : List Fragment) (c n a : Str) (m : Message),
      assemble_from c n a frags = .ok m → assembler_shape m := by
  intro frags
  induction frags with
  | nil =>
    intro c n a m h
    simp [assemble_from] at h
  | cons f rest ih =>
    intro c n a m h
    simp only [assemble_from] at h
    split at h
    · exact absurd h (by simp)
    · split at h
      · split at h
        · cases h
          simp [assembler_shape]
        · split at h
          · cases h
            simp [assembler_shape]
          · exact absurd h (by simp)
      · exact ih _ _ _ _ h

theorem getLast_append_pair {α : Type} (l : List α) (a b : α) :
    (l ++ [a, b]).getLast? = some b := by
  rw [(by simp : l ++ [a, b] = (l ++ [a]) ++ [b])]
  exact List.getLast?_concat _

/-- One append step of the loop on an assembler-shaped message: exactly one
or two messages are appended (the latter an assistant function-call message
followed by the function-role message carrying the call's name), the
previous conversation is untouched, and the loop's continuation condition
after the step is equivalent to the function-call case. -/
theorem update_new_messages_step (msgs : List Message) (m : Message)
    (hm : assembler_shape m) :
    ∃ appended,
      update_new_messages msgs m = some (msgs ++ appended) ∧
      ((m.function_call = none ∧ appended = [m]) ∨
       (∃ fc, m.function_call = some fc ∧
         appended = [m, create_function_call_message fc.name fc.arguments] ∧
         (create_function_call_message fc.name fc.arguments).role = Role.function ∧
         (create_function_call_message fc.name fc.arguments).name = some fc.name)) ∧
      ((msgs ++ appended).getLast?.any (fun x => decide (x.role = Role.assistant)) ↔
        m.function_call = none) := by
  obtain ⟨hrole, hname, hrest⟩ := hm
  cases m with
  | mk role content name function_call =>
    simp only at hrole hname
    subst hrole hname
    rcases hrest with ⟨c, hc, hfc⟩ | ⟨hc, fc, hfc⟩ <;> simp only at hc hfc <;> subst hc hfc
    · refine ⟨_, rfl, Or.inl ⟨rfl, rfl⟩, ?_⟩
      simp [List.getLast?_concat]
    · refine ⟨[_, create_function_call_message fc.name fc.arguments], ?_, Or.inr ⟨fc, rfl, rfl, rfl, rfl⟩, ?_⟩
      · simp [update_new_messages, trim]
      · simp [getLast_append_pair, create_function_call_message]

/-- Running the loop from any state under an oracle that only produces
assembler-shaped messages: the conversation is only ever extended (never
edited), the `unreachable!` is never reached, and a normal exit happens
exactly in a state whose last message has the assistant role. -/
theorem run_loop_invariants (assembled : List Message → Message)
    (hshape : ∀ state, assembler_shape (assembled state)) :
    ∀ (fuel : Nat) (msgs : List Message),
      (∀ ms, run_loop assembled fuel msgs = .done ms →
        (∃ t, ms = msgs ++ t) ∧
          ms.getLast?.any (fun x => decide (x.role = Role.assistant)) = true) ∧
      (∀ ms, run_loop assembled fuel msgs = .out_of_fuel ms → ∃ t, ms = msgs ++ t) ∧
      (∀ ms, run_loop assembled fuel msgs ≠ .stuck ms) := by
  intro fuel
  induction fuel with
  | zero =>
    intro msgs
    refine ⟨?_, ?_, ?_⟩
    · intro ms h; simp [run_loop] at h
    · intro ms h
      simp [run_loop] at h
      exact ⟨[], by simp [h]⟩
    · intro ms h; simp [run_loop] at h
  | succ fuel ih =>
    intro msgs
    by_cases hcond : msgs.getLast?.any (fun m => decide (m.role = Role.assistant)) = true
    · refine ⟨?_, ?_, ?_⟩
      · intro ms h
        simp only [run_loop, hcond, if_true] at h
        cases h
        exact ⟨⟨[], by simp⟩, hcond⟩
      · intro ms h
        simp only [run_loop, hcond, if_true] at h
        exact LoopResult.noConfusion h
      · intro ms h
        simp only [run_loop, hcond, if_true] at h
        exact LoopResult.noConfusion h
    · obtain ⟨appended, hupd, _, _⟩ := update_new_messages_step msgs (assembled msgs) (hshape msgs)
      have hstep : run_loop assembled (fuel + 1) msgs = run_loop assembled fuel (msgs ++ appended) := by
        simp only [run_loop, hcond, if_false, Bool.false_eq_true, hupd]
      refine ⟨?_, ?_, ?_⟩
      · intro ms h
        rw [hstep] at h
        obtain ⟨⟨t, ht⟩, hlast⟩ := (ih (msgs ++ appended)).1 ms h
        exact ⟨⟨appended ++ t, by simp [ht]⟩, hlast⟩
      · intro ms h
        rw [hstep] at h
        obtain ⟨t, ht⟩ := (ih (msgs ++ appended)).2.1 ms h
        exact ⟨appended ++ t, by simp [ht]⟩
      · intro ms h
        rw [hstep] at h
        exact (ih (msgs ++ appended)).2.2 ms h

/-- C10 (confirmed): every completed iteration of the conversation loop
appends exactly one message (a plain assistant answer) or exactly two (an
assistant function-call message immediately followed by a function-role
message carrying that call's name); previously appended messages are never
modified or removed, and the loop terminates exactly when the most recently
appended message has the assistant role (the continuation condition after a
step is equivalent to the function-call case, and every normal exit state
ends in an assistant-role message). -/
theorem conversation_loop_append_only
    (assembled : List Message → Message)
    (hshape : ∀ state, assembler_shape (assembled state)) :
    (∀ (frags : List Fragment) (c n a : Str) (m : Message),
      assemble_from c n a frags = .ok m → assembler_shape m) ∧
    (∀ (msgs : List Message) (m : Message), assembler_shape m →
      ∃ appended,
        update_new_messages msgs m = some (msgs ++ appended) ∧
        ((m.function_call = none ∧ appended = [m]) ∨
         (∃ fc, m.function_call = some fc ∧
           appended = [m, create_function_call_message fc.name fc.arguments] ∧
           (create_function_call_message fc.name fc.arguments).role = Role.function ∧
           (create_function_call_message fc.name fc.arguments).name = some fc.name)) ∧
        ((msgs ++ appended).getLast?.any (fun x => decide (x.role = Role.assistant)) ↔
          m.function_call = none)) ∧
    (∀ (fuel : Nat) (msgs : List Message),
      (∀ ms, run_loop assembled fuel msgs = .done ms →
        (∃ t, ms = msgs ++ t) ∧
          ms.getLast?.any (fun x => decide (x.role = Role.assistant)) = true) ∧
      (∀ ms, run_loop assembled fuel msgs = .out_of_fuel ms → ∃ t, ms = msgs ++ t) ∧
      (∀ ms, run_loop assembled fuel msgs ≠ .stuck ms)) :=
  ⟨assemble_from_shape, update_new_messages_step, run_loop_invariants assembled hshape⟩

/-- Witness for C10: a concrete two-iteration run (one function call, then a
plain answer) appends one or two messages per iteration and stops in a state
ending with the assistant answer. -/
theorem conversation_loop_append_only_witness :
    (∀ (msgs : List Message) (m : Message), assembler_shape m →
      ∃ appended,
        update_new_messages msgs m = some (msgs ++ appended) ∧
        ((m.function_call = none ∧ appended = [m]) ∨
         (∃ fc, m.function_call = some fc ∧
           appended = [m, create_function_call_message fc.name fc.arguments] ∧
           (create_function_call_message fc.name fc.arguments).role = Role.function ∧
           (create_function_call_message fc.name fc.arguments).name = some fc.name)) ∧
        ((msgs ++ appended).getLast?.any (fun x => decide (x.role = Role.assistant)) ↔
          m.function_call = none)) ∧
    (∀ ms, run_loop (fun _ => { role := .assistant, content := some (lit "Sunny, 72F.") }) 3
        [{ role := .user, content := some (lit "Weather?") }] ≠ .stuck ms) :=
  ⟨(conversation_loop_append_only (fun _ => { role := .assistant, content := some (lit "Sunny, 72F.") })
      (fun _ => ⟨rfl, rfl, Or.inl ⟨lit "Sunny, 72F.", rfl, rfl⟩⟩)).2.1,
   ((conversation_loop_append_only (fun _ => { role := .assistant, content := some (lit "Sunny, 72F.") })
      (fun _ => ⟨rfl, rfl, Or.inl ⟨lit "Sunny, 72F.", rfl, rfl⟩⟩)).2.2 3
      [{ role := .user, content := some (lit "Weather?") }]).2.2⟩

/-! ## Providers and the approval gate (`src/functions.rs`), claims C2, C6 -/

/-- A function provider (`Provider` in `src/functions.rs`). -/
structure Provider where
  name : Str
  command : Str
  args : List Str
  safe : Bool
deriving DecidableEq

/-- Result of the interactive yes/no confirmation channel
(`dialoguer::Confirm::interact`): approval, refusal, or a channel failure
(for example, no interactive terminal), which `dialoguer` reports as an
`Err`. -/
inductive ConfirmAnswer where
  | yes
  | no
  | failure
deriving DecidableEq

/-- `Provider::is_approved` in `src/functions.rs`: the expression
`self.safe || Confirm::...interact()?`.  The result is paired with whether
the interactive prompt was rendered: the short-circuiting `||` never reaches
`interact` for a safe provider.  `Except` models the `?` propagation of a
confirmation-channel failure (which can only arise after the prompt was
rendered). -/
def Provider.is_approved (p : Provider) (confirm : ConfirmAnswer) :
    Except Unit (Bool × Bool) :=
  if p.safe then .ok (true, false)
  else
    match confirm with
    | .yes => .ok (true, true)
    | .no => .ok (false, true)
    | .failure => .error ()

/-- Outcome of attempting to launch the provider subprocess and read its
combined stdout+stderr (`duct::cmd(..).stdin_bytes(..).stderr_to_stdout()
.unchecked().read()`): either the launch fails (spawn error), or the process
completes with some exit status and captured output. -/
inductive ExecOutcome where
  | launch_failure
  | completed (exit_status : Nat) (output : Str)
deriving DecidableEq

/-- `duct`'s `read()` under `unchecked()`: the captured text regardless of
the exit status (non-zero included); only a launch failure is an `Err`. -/
def unchecked_read : ExecOutcome → Except Unit Str
  | .launch_failure => .error ()
  | .completed _ output => .ok output

/-- What `Provider::call` can do: return `Ok(Some(text))`/`Ok(None)` (the
`result` case), propagate the confirmation error, or panic — the source
`.expect(..)`s the subprocess read, so a launch failure aborts the process
instead of being returned. -/
inductive CallOutcome where
  | result (response : Option Str)
  | confirm_error
  | panicked
deriving DecidableEq

/-- Audit trace of one `Provider::call`: whether the interactive prompt was
rendered and whether a subprocess was launched. -/
structure CallTrace where
  prompted : Bool
  launched : Bool
deriving DecidableEq

/-- `Provider::call` in `src/functions.rs`: consult `is_approved` first; on
approval, launch `self.command` with `self.args`, feeding the arguments text
on stdin, and `.expect(..)` the unchecked read (a launch failure panics with
"unchecked command execution should never fail"); on refusal return `None`
without launching anything; a confirmation failure propagates via `?`.  The
`exec` oracle maps the launched command, args and stdin to its outcome. -/
def Provider.call (p : Provider) (confirm : ConfirmAnswer)
    (exec : Str → List Str → Str → ExecOutcome) (arguments : Str) :
    CallOutcome × CallTrace :=
  match p.is_approved confirm with
  | .error () => (.confirm_error, { prompted := true, launched := false })
  | .ok (approved, prompted) =>
    if approved then
      match unchecked_read (exec p.command p.args arguments) with
      | .ok response => (.result (some response), { prompted := prompted, launched := true })
      | .error () => (.panicked, { prompted := prompted, launched := true })
    else (.result none, { prompted := prompted, launched := false })

/-- `FunctionResponse` in `src/functions.rs`. -/
inductive FunctionResponse where
  | Executed (output : Str)
  | Aborted
  | NotFound
deriving DecidableEq

/-- The registry `Functions` in `src/functions.rs`: providers and function
specification overrides. -/
structure Functions where
  provider : List Provider
  function : List ChatCompletionFunctions

/-- `Functions::get_provider`: first provider with the given name. -/
def Functions.get_provider (fns : Functions) (name : Str) : Option Provider :=
  fns.provider.find? (fun p => p.name == name)

/-- `Functions::get_function`: first override with the given name. -/
def Functions.get_function (fns : Functions) (name : Str) : Option ChatCompletionFunctions :=
  fns.function.find? (fun f => f.name == name)

/-- What `Functions::call` can do, mirroring `CallOutcome` one level up. -/
inductive FnCallOutcome where
  | response (r : FunctionResponse)
  | confirm_error
  | panicked
deriving DecidableEq

/-- `Functions::call` in `src/functions.rs`: look the provider up by name;
an unregistered name yields `NotFound`; otherwise `Provider::call`'s
`Some(text)` becomes `Executed(text)` and `None` becomes `Aborted`. -/
def Functions.call (fns : Functions) (name arguments : Str) (confirm : ConfirmAnswer)
    (exec : Str → List Str → Str → ExecOutcome) : FnCallOutcome × CallTrace :=
  match fns.get_provider name with
  | some p =>
    match p.call confirm exec arguments with
    | (.result (some text), tr) => (.response (.Executed text), tr)
    | (.result none, tr) => (.response .Aborted, tr)
    | (.confirm_error, tr) => (.confirm_error, tr)
    | (.panicked, tr) => (.panicked, tr)
  | none => (.response .NotFound, { prompted := false, launched := false })

/-- C2 (confirmed): for every non-safe provider, `call` renders the
interactive prompt, returns a refusal as `None`/`Aborted` with no subprocess
launched, and propagates a confirmation-channel failure as an error (again
with no launch); for every safe provider it never prompts; and no subprocess
is ever launched without the safe flag or an explicit interactive yes. -/
theorem approval_gate_guards_execution (p : Provider) (confirm : ConfirmAnswer)
    (exec : Str → List Str → Str → ExecOutcome) (arguments : Str) :
    (p.safe = false → (p.call confirm exec arguments).2.prompted = true) ∧
    (p.safe = true → (p.call confirm exec arguments).2.prompted = false) ∧
    (p.safe = false → confirm = .no →
      p.call confirm exec arguments = (.result none, { prompted := true, launched := false })) ∧
    (p.safe = false → confirm = .failure →
      p.call confirm exec arguments = (.confirm_error, { prompted := true, launched := false })) ∧
    ((p.call confirm exec arguments).2.launched = true → p.safe = true ∨ confirm = .yes) ∧
    (∀ (fns : Functions) (name : Str), fns.get_provider name = some p →
      p.safe = false → confirm = .no →
      fns.call name arguments confirm exec =
        (.response .Aborted, { prompted := true, launched := false })) := by
  cases hsafe : p.safe <;> cases confirm <;>
    cases hexec : exec p.command p.args arguments <;>
      refine ⟨?_, ?_, ?_, ?_, ?_, ?_⟩ <;>
        simp_all [Provider.call, Provider.is_approved, unchecked_read, Functions.call,
          hexec]

/-- Witness for C2: a concrete non-safe provider, a refusing user, and an
oracle that would have produced output had it run. -/
theorem approval_gate_guards_execution_witness :
    Provider.call
        { name := lit "sh", command := lit "sh", args := [lit "-c"], safe := false }
        .no (fun _ _ _ => .completed 0 (lit "ran!")) (lit "reboot") =
      (.result none, { prompted := true, launched := false }) :=
  (approval_gate_guards_execution
      { name := lit "sh", command := lit "sh", args := [lit "-c"], safe := false }
      .no (fun _ _ _ => .completed 0 (lit "ran!")) (lit "reboot")).2.2.1 rfl rfl

/-- C6 (code bug): evaluating `Provider::call` shows that a completed
subprocess's captured text is returned regardless of a non-zero exit status
(first conjunct, as the claim says), but a launch failure panics through
`.expect("unchecked command execution should never fail")`, aborting the
whole process rather than surfacing an error to the conversation loop
(second conjunct). -/
theorem provider_launch_failure_panics :
    (Provider.call { name := lit "w", command := lit "w", args := [], safe := true }
        .yes (fun _ _ _ => .completed 3 (lit "error: it broke")) (lit "\x7b\x7d")).1 =
      .result (some (lit "error: it broke")) ∧
    (Provider.call { name := lit "w", command := lit "/nonexistent/bin", args := [], safe := true }
        .yes (fun _ _ _ => .launch_failure) (lit "\x7b\x7d")).1 = .panicked :=
  ⟨rfl, rfl⟩

/-! ## Order and sorted-map lemmas for the JSON object model -/

theorem str_lt_cons_iff (a1 b1 : Char) (as bs : Str) :
    str_lt (a1 :: as) (b1 :: bs) = true ↔ a1 < b1 ∨ (a1 = b1 ∧ str_lt as bs = true) := by
  simp only [str_lt]
  by_cases h1 : a1 < b1
  · simp [h1]
  · by_cases h2 : b1 < a1
    · have hne : a1 ≠ b1 := fun h => absurd (h ▸ h2) (lt_irrefl a1)
      simp [h1, h2, hne]
    · have heq : a1 = b1 := le_antisymm (le_of_not_lt h2) (le_of_not_lt h1)
      simp [h1, h2, heq]

theorem str_lt_irrefl : ∀ a : Str, str_lt a a = false := by
  intro a
  induction a with
  | nil => rfl
  | cons c cs ih =>
    cases h : str_lt (c :: cs) (c :: cs) with
    | false => rfl
    | true =>
      rw [str_lt_cons_iff] at h
      rcases h with h | ⟨_, h2⟩
      · exact absurd h (lt_irrefl c)
      · rw [ih] at h2
        simp at h2

theorem str_lt_trans :
    ∀ a b c : Str, str_lt a b = true → str_lt b c = true → str_lt a c = true := by
  intro a
  induction a with
  | nil =>
    intro b c hab hbc
    cases b with
    | nil => simp [str_lt] at hab
    | cons b1 bs =>
      cases c with
      | nil => simp [str_lt] at hbc
      | cons c1 cs => rfl
  | cons a1 as ih =>
    intro b c hab hbc
    cases b with
    | nil => simp [str_lt] at hab
    | cons b1 bs =>
      cases c with
      | nil => simp [str_lt] at hbc
      | cons c1 cs =>
        rw [str_lt_cons_iff] at hab hbc ⊢
        rcases hab with h1 | ⟨he1, hr1⟩
        · rcases hbc with h2 | ⟨he2, _⟩
          · exact Or.inl (lt_trans h1 h2)
          · subst he2; exact Or.inl h1
        · subst he1
          rcases hbc with h2 | ⟨he2, hr2⟩
          · exact Or.inl h2
          · subst he2; exact Or.inr ⟨rfl, ih bs cs hr1 hr2⟩

theorem str_lt_connex :
    ∀ a b : Str, str_lt a b = false → a ≠ b → str_lt b a = true := by
  intro a
  induction a with
  | nil =>
    intro b hab hne
    cases b with
    | nil => exact absurd rfl hne
    | cons b1 bs => simp [str_lt] at hab
  | cons a1 as ih =>
    intro b hab hne
    cases b with
    | nil => rfl
    | cons b1 bs =>
      have hab' : ¬(a1 < b1 ∨ (a1 = b1 ∧ str_lt as bs = true)) := by
        rw [← str_lt_cons_iff]; simp [hab]
      push_neg at hab'
      obtain ⟨hlt, heqr⟩ := hab'
      rw [str_lt_cons_iff]
      by_cases heq : a1 = b1
      · subst heq
        have hne' : as ≠ bs := fun h => hne (by rw [h])
        have hfa : str_lt as bs = false := by
          cases h : str_lt as bs
          · rfl
          · exact absurd h (heqr rfl)
        exact Or.inr ⟨rfl, ih bs hfa hne'⟩
      · exact Or.inl (lt_of_le_of_ne hlt (fun h => heq h.symm))

/-- Field lookup in a JSON object's member list (`BTreeMap` lookup;
first match). -/
def obj_get : List (Str × Json) → Str → Option Json
  | [], _ => none
  | (k', v') :: rest, k => if k' = k then some v' else obj_get rest k

/-- Field removal (`BTreeMap::remove`): drop the entry with the key,
preserving the order of the rest. -/
def remove_field : List (Str × Json) → Str → List (Str × Json)
  | [], _ => []
  | (k', v') :: rest, k => if k' = k then rest else (k', v') :: remove_field rest k

theorem insert_field_cons (k1 : Str) (v1 : Json) (rest : List (Str × Json))
    (k : Str) (w : Json) :
    insert_field ((k1, v1) :: rest) k w =
      if str_lt k k1 = true then (k, w) :: (k1, v1) :: rest
      else if k = k1 then (k, w) :: rest
      else (k1, v1) :: insert_field rest k w := rfl

theorem obj_get_cons (k1 : Str) (v1 : Json) (rest : List (Str × Json)) (k : Str) :
    obj_get ((k1, v1) :: rest) k = if k1 = k then some v1 else obj_get rest k := rfl

theorem obj_get_insert_self :
    ∀ (doc : List (Str × Json)) (k : Str) (w : Json),
      obj_get (insert_field doc k w) k = some w := by
  intro doc k w
  induction doc with
  | nil => simp [insert_field, obj_get]
  | cons kv rest ih =>
    obtain ⟨k1, v1⟩ := kv
    rw [insert_field_cons]
    by_cases h1 : str_lt k k1 = true
    · rw [if_pos h1, obj_get_cons, if_pos rfl]
    · rw [if_neg h1]
      by_cases h2 : k = k1
      · rw [if_pos h2, obj_get_cons, if_pos rfl]
      · rw [if_neg h2, obj_get_cons, if_neg (Ne.symm h2), ih]

theorem obj_get_insert_ne :
    ∀ (doc : List (Str × Json)) (k kq : Str) (w : Json), kq ≠ k →
      obj_get (insert_field doc k w) kq = obj_get doc kq := by
  intro doc k kq w hne
  induction doc with
  | nil =>
    show obj_get [(k, w)] kq = obj_get [] kq
    rw [obj_get_cons, if_neg (Ne.symm hne)]
  | cons kv rest ih =>
    obtain ⟨k1, v1⟩ := kv
    rw [insert_field_cons]
    by_cases h1 : str_lt k k1 = true
    · rw [if_pos h1, obj_get_cons, if_neg (Ne.symm hne)]
    · rw [if_neg h1]
      by_cases h2 : k = k1
      · rw [if_pos h2, obj_get_cons, if_neg (Ne.symm hne), obj_get_cons,
          if_neg (h2 ▸ Ne.symm hne)]
      · rw [if_neg h2, obj_get_cons, obj_get_cons, ih]

theorem obj_get_remove_ne :
    ∀ (doc : List (Str × Json)) (k kq : Str), kq ≠ k →
      obj_get (remove_field doc k) kq = obj_get doc kq := by
  intro doc k kq hne
  induction doc with
  | nil => rfl
  | cons kv rest ih =>
    obtain ⟨k1, v1⟩ := kv
    show obj_get (if k1 = k then rest else (k1, v1) :: remove_field rest k) kq = _
    by_cases h1 : k1 = k
    · rw [if_pos h1, obj_get_cons, if_neg (h1 ▸ fun h => hne h.symm)]
    · rw [if_neg h1, obj_get_cons, obj_get_cons, ih]

theorem obj_get_eq_none_of_not_mem :
    ∀ (doc : List (Str × Json)) (k : Str), k ∉ doc.map Prod.fst →
      obj_get doc k = none := by
  intro doc k h
  induction doc with
  | nil => rfl
  | cons kv rest ih =>
    obtain ⟨k1, v1⟩ := kv
    simp only [List.map_cons, List.mem_cons] at h
    push_neg at h
    rw [obj_get_cons, if_neg (Ne.symm h.1), ih h.2]

theorem mem_insert_field :
    ∀ (doc : List (Str × Json)) (k : Str) (w : Json) (y : Str × Json),
      y ∈ insert_field doc k w → y ∈ doc ∨ y = (k, w) := by
  intro doc k w y hy
  induction doc with
  | nil =>
    simp [insert_field] at hy
    exact Or.inr hy
  | cons kv rest ih =>
    obtain ⟨k1, v1⟩ := kv
    rw [insert_field_cons] at hy
    by_cases h1 : str_lt k k1 = true
    · rw [if_pos h1] at hy
      rcases List.mem_cons.mp hy with h | h
      · exact Or.inr h
      · exact Or.inl h
    · rw [if_neg h1] at hy
      by_cases h2 : k = k1
      · rw [if_pos h2] at hy
        rcases List.mem_cons.mp hy with h | h
        · exact Or.inr h
        · exact Or.inl (List.mem_cons_of_mem _ h)
      · rw [if_neg h2] at hy
        rcases List.mem_cons.mp hy with h | h
        · exact Or.inl (by rw [h]; exact List.mem_cons_self _ _)
        · rcases ih h with h' | h'
          · exact Or.inl (List.mem_cons_of_mem _ h')
          · exact Or.inr h'

/-- The check `Value::is_null`. -/
def Json.is_null : Json → Bool
  | .null => true
  | _ => false

theorem is_null_iff (v : Json) : v.is_null = true ↔ v = .null := by
  cases v <;> simp [Json.is_null]

/-- Strict key order between object members, the `BTreeMap` invariant. -/
def KeyOrder (x y : Str × Json) : Prop := str_lt x.1 y.1 = true

instance : DecidableRel KeyOrder :=
  fun x y => inferInstanceAs (Decidable (str_lt x.1 y.1 = true))

theorem keys_sorted_insert (doc : List (Str × Json)) (k : Str) (w : Json)
    (h : List.Pairwise KeyOrder doc) :
    List.Pairwise KeyOrder (insert_field doc k w) := by
  induction doc with
  | nil => simp [insert_field]
  | cons kv rest ih =>
    obtain ⟨k1, v1⟩ := kv
    rw [List.pairwise_cons] at h
    obtain ⟨h1all, hrest⟩ := h
    rw [insert_field_cons]
    by_cases h1 : str_lt k k1 = true
    · rw [if_pos h1]
      refine List.Pairwise.cons ?_ (List.Pairwise.cons h1all hrest)
      intro y hy
      rcases List.mem_cons.mp hy with hy1 | hy2
      · rw [hy1]; exact h1
      · exact str_lt_trans _ _ _ h1 (h1all y hy2)
    · rw [if_neg h1]
      have hf : str_lt k k1 = false := by
        cases hb : str_lt k k1 with
        | false => rfl
        | true => exact absurd hb h1
      by_cases h2 : k = k1
      · rw [if_pos h2]
        refine List.Pairwise.cons ?_ hrest
        intro y hy
        rw [KeyOrder, h2]
        exact h1all y hy
      · rw [if_neg h2]
        refine List.Pairwise.cons ?_ (ih hrest)
        intro y hy
        rcases mem_insert_field rest k w y hy with hy1 | hy2
        · exact h1all y hy1
        · rw [hy2]
          exact str_lt_connex k k1 hf h2

theorem remove_field_sublist (doc : List (Str × Json)) (k : Str) :
    List.Sublist (remove_field doc k) doc := by
  induction doc with
  | nil => exact List.Sublist.refl _
  | cons kv rest ih =>
    obtain ⟨k1, v1⟩ := kv
    show List.Sublist (if k1 = k then rest else (k1, v1) :: remove_field rest k) _
    by_cases h1 : k1 = k
    · rw [if_pos h1]
      exact List.sublist_cons_self _ _
    · rw [if_neg h1]
      exact List.Sublist.cons₂ _ ih

theorem keys_sorted_remove (doc : List (Str × Json)) (k : Str)
    (h : List.Pairwise KeyOrder doc) :
    List.Pairwise KeyOrder (remove_field doc k) :=
  List.Pairwise.sublist (remove_field_sublist doc k) h

theorem sorted_head_not_in_tail (k0 : Str) (rest : List (Str × Json))
    (h : ∀ y ∈ rest, KeyOrder (k0, Json.null) y) :
    k0 ∉ rest.map Prod.fst := by
  intro hmem
  rcases List.mem_map.mp hmem with ⟨y, hy, hely⟩
  have := h y hy
  rw [KeyOrder, hely] at this
  rw [str_lt_irrefl] at this
  exact Bool.false_ne_true this

theorem obj_get_remove_self (doc : List (Str × Json)) (k : Str)
    (h : List.Pairwise KeyOrder doc) :
    obj_get (remove_field doc k) k = none := by
  induction doc with
  | nil => rfl
  | cons kv rest ih =>
    obtain ⟨k1, v1⟩ := kv
    rw [List.pairwise_cons] at h
    obtain ⟨h1all, hrest⟩ := h
    show obj_get (if k1 = k then rest else (k1, v1) :: remove_field rest k) k = none
    by_cases h1 : k1 = k
    · rw [if_pos h1]
      refine obj_get_eq_none_of_not_mem rest k ?_
      subst h1
      exact sorted_head_not_in_tail k1 rest (fun y hy => h1all y hy)
    · rw [if_neg h1, obj_get_cons, if_neg h1, ih hrest]

mutual

/-- The function `json_patch::merge` of the `json_patch` crate, used by
`merge` in `src/functions.rs`: a non-object patch replaces the document
wholesale; an object patch first coerces a non-object document to the empty
object, then for each patch member in order a null value removes the key and
any other value is merged recursively into the existing value at that key
(an absent key starts from null). -/
def json_merge (doc patch : Json) : Json :=
  match patch with
  | .obj pfields =>
    .obj (merge_fields
      (match doc with
       | .obj dfields => dfields
       | _ => []) pfields)
  | p => p

/-- The member loop of `json_patch::merge` over the patch object's fields. -/
def merge_fields (doc : List (Str × Json)) : List (Str × Json) → List (Str × Json)
  | [] => doc
  | (k, v) :: rest =>
    if v.is_null then merge_fields (remove_field doc k) rest
    else merge_fields (insert_field doc k (json_merge ((obj_get doc k).getD .null) v)) rest

end

/-- Per-key characterization of the member loop of `json_patch::merge` on
well-formed (sorted-map) objects: a null patch value deletes the key, any
other patch value is recursively merged over the document's value at that
key, and keys absent from the patch are untouched. -/
theorem merge_fields_lookup :
    ∀ (pf doc : List (Str × Json)),
      List.Pairwise KeyOrder doc → List.Pairwise KeyOrder pf →
      ∀ k, obj_get (merge_fields doc pf) k =
        match obj_get pf k with
        | some .null => none
        | some v => some (json_merge ((obj_get doc k).getD .null) v)
        | none => obj_get doc k := by
  intro pf
  induction pf with
  | nil =>
    intro doc hdoc hpf k
    simp [merge_fields, obj_get]
  | cons kv rest ih =>
    obtain ⟨k0, v0⟩ := kv
    intro doc hdoc hpf k
    rw [List.pairwise_cons] at hpf
    obtain ⟨h0all, hrest⟩ := hpf
    have hk0rest : obj_get rest k0 = none :=
      obj_get_eq_none_of_not_mem rest k0
        (sorted_head_not_in_tail k0 rest (fun y hy => h0all y hy))
    by_cases hv : v0.is_null = true
    · rw [is_null_iff] at hv
      subst hv
      rw [show merge_fields doc ((k0, Json.null) :: rest) =
          merge_fields (remove_field doc k0) rest from by
        simp [merge_fields, Json.is_null]]
      rw [ih (remove_field doc k0) (keys_sorted_remove doc k0 hdoc) hrest k]
      by_cases hk : k0 = k
      · subst hk
        rw [obj_get_cons, if_pos rfl, hk0rest, obj_get_remove_self doc k0 hdoc]
      · rw [obj_get_cons, if_neg hk, obj_get_remove_ne doc k0 k (Ne.symm hk)]
    · have hvf : v0.is_null = false := by
        cases hb : v0.is_null with
        | false => rfl
        | true => exact absurd hb hv
      rw [show merge_fields doc ((k0, v0) :: rest) =
          merge_fields (insert_field doc k0 (json_merge ((obj_get doc k0).getD .null) v0))
            rest from by
        simp [merge_fields, hvf]]
      rw [ih _ (keys_sorted_insert doc k0 _ hdoc) hrest k]
      by_cases hk : k0 = k
      · subst hk
        rw [hk0rest, obj_get_cons, if_pos rfl, obj_get_insert_self]
        cases v0 with
        | null => exact absurd rfl ((is_null_iff _).not.mp (by simp [hvf]))
        | _ => rfl
      · rw [obj_get_cons, if_neg hk, obj_get_insert_ne doc k0 k _ (Ne.symm hk)]

/-- The function `merge` in `src/functions.rs`: a present patch description
replaces the base description wholesale; when both parameter sets are
present they are combined with `json_patch::merge`, otherwise a present
patch parameter set replaces the base's; the name is never taken from the
patch (the source discards `patch.name` with `name: _`). -/
def merge (spec patch : ChatCompletionFunctions) : ChatCompletionFunctions :=
  let spec1 :=
    match patch.description with
    | some d => { spec with description := some d }
    | none => spec
  match spec1.parameters, patch.parameters with
  | some sp, some pp => { spec1 with parameters := some (json_merge sp pp) }
  | none, some pp => { spec1 with parameters := some pp }
  | _, _ => spec1

/-- C7 (confirmed): `merge` replaces the base description wholesale when the
patch's is present, never takes the name from the patch, and on two present
(well-formed) parameter objects applies merge-patch semantics — per key of
the patch, null deletes, any other value overwrites (recursively, via
`json_merge`), and keys absent from the patch are untouched; in particular
merging parameters with keys a=1,b=2 with the patch b=null,c=3 yields
a=1,c=3. -/
theorem merge_respects_patch_semantics (spec patch : ChatCompletionFunctions)
    (b pf : List (Str × Json))
    (hb : List.Pairwise KeyOrder b)
    (hpf : List.Pairwise KeyOrder pf) :
    (∀ d, patch.description = some d → (merge spec patch).description = some d) ∧
    (merge spec patch).name = spec.name ∧
    (spec.parameters = some (.obj b) → patch.parameters = some (.obj pf) →
      (merge spec patch).parameters = some (.obj (merge_fields b pf)) ∧
      ∀ k, obj_get (merge_fields b pf) k =
        match obj_get pf k with
        | some .null => none
        | some v => some (json_merge ((obj_get b k).getD .null) v)
        | none => obj_get b k) ∧
    json_merge (.obj [(['a'], .num 1), (['b'], .num 2)])
        (.obj [(['b'], .null), (['c'], .num 3)]) =
      .obj [(['a'], .num 1), (['c'], .num 3)] := by
  refine ⟨?_, ?_, ?_, ?_⟩
  · intro d hd
    cases hsp : spec.parameters <;> cases hpp : patch.parameters <;>
      simp [merge, hd, hsp, hpp]
  · cases hpd : patch.description <;> cases hsp : spec.parameters <;>
      cases hpp : patch.parameters <;> simp [merge, hpd, hsp, hpp]
  · intro hsp hpp
    refine ⟨?_, merge_fields_lookup pf b hb hpf⟩
    cases hpd : patch.description <;> simp [merge, hpd, hsp, hpp, json_merge]
  · simp [json_merge, merge_fields, Json.is_null, insert_field, remove_field,
      obj_get, str_lt]

/-- Witness for C7 at a concrete base/patch override pair. -/
theorem merge_respects_patch_semantics_witness :
    (merge { name := lit "get_current_weather"
             description := some (lit "old words")
             parameters := some (.obj [(['a'], .num 1), (['b'], .num 2)]) }
           { name := lit "imposter"
             description := some (lit "new words")
             parameters := some (.obj [(['b'], .null), (['c'], .num 3)]) }).description =
      some (lit "new words") ∧
    (merge { name := lit "get_current_weather"
             description := some (lit "old words")
             parameters := some (.obj [(['a'], .num 1), (['b'], .num 2)]) }
           { name := lit "imposter"
             description := some (lit "new words")
             parameters := some (.obj [(['b'], .null), (['c'], .num 3)]) }).name =
      lit "get_current_weather" := by
  have h := merge_respects_patch_semantics
    { name := lit "get_current_weather"
      description := some (lit "old words")
      parameters := some (.obj [(['a'], .num 1), (['b'], .num 2)]) }
    { name := lit "imposter"
      description := some (lit "new words")
      parameters := some (.obj [(['b'], .null), (['c'], .num 3)]) }
    [(['a'], .num 1), (['b'], .num 2)] [(['b'], .null), (['c'], .num 3)]
    (by decide) (by decide)
  exact ⟨h.1 (lit "new words") rfl, h.2.1⟩

/-! ## Registry loading (`Functions::load` in `src/functions.rs`), claim C8 -/

theorem str_lt_asymm (a b : Str) (h : str_lt a b = true) : str_lt b a = false := by
  cases hb : str_lt b a with
  | false => rfl
  | true =>
    have := str_lt_trans a b a h hb
    rw [str_lt_irrefl] at this
    exact absurd this (by simp)

theorem str_lt_trans_nlt_left (a b c : Str) (h1 : str_lt b a = false)
    (h2 : str_lt b c = true) : str_lt a c = true := by
  by_cases heq : a = b
  · subst heq; exact h2
  · exact str_lt_trans a b c (str_lt_connex b a h1 (fun h => heq h.symm)) h2

theorem str_lt_trans_nlt_right (a b c : Str) (h1 : str_lt a b = true)
    (h2 : str_lt c b = false) : str_lt a c = true := by
  by_cases heq : b = c
  · subst heq; exact h1
  · exact str_lt_trans a b c h1 (str_lt_connex c b h2 (fun h => heq h.symm))

/-- Stable insertion: the element goes before the first position whose key is
not smaller.  The fold of this insertion is a stable sort by key, modelling
`itertools::sorted_by` with the comparator `p.name.cmp(&q.name)` (any stable
sort agrees with it elementwise). -/
def insert_by_key {α : Type} (key : α → Str) (p : α) : List α → List α
  | [] => [p]
  | q :: l => if str_lt (key q) (key p) = true then q :: insert_by_key key p l else p :: q :: l

/-- Stable sort by key (see `insert_by_key`). -/
def sort_by_key {α : Type} (key : α → Str) : List α → List α
  | [] => []
  | p :: l => insert_by_key key p (sort_by_key key l)

/-- The loop of `itertools::dedup_by_with_count` with the name-equality
closure: each retained element is the first of a run of elements whose key
equals the last retained key, paired with the run length. -/
def dedup_by_key_aux {α : Type} (key : α → Str) (kept : α) (count : Nat) :
    List α → List (Nat × α)
  | [] => [(count, kept)]
  | q :: l =>
    if key kept = key q then dedup_by_key_aux key kept (count + 1) l
    else (count, kept) :: dedup_by_key_aux key q 1 l

/-- `itertools::dedup_by_with_count` with the name-equality closure. -/
def dedup_by_key {α : Type} (key : α → Str) : List α → List (Nat × α)
  | [] => []
  | p :: l => dedup_by_key_aux key p 1 l

theorem mem_insert_by_key {α : Type} (key : α → Str) (p : α) :
    ∀ (l : List α) (y : α), y ∈ insert_by_key key p l → y ∈ l ∨ y = p := by
  intro l
  induction l with
  | nil =>
    intro y hy
    simp [insert_by_key] at hy
    exact Or.inr hy
  | cons q l ih =>
    intro y hy
    rw [insert_by_key] at hy
    by_cases h1 : str_lt (key q) (key p) = true
    · rw [if_pos h1] at hy
      rcases List.mem_cons.mp hy with h | h
      · exact Or.inl (h ▸ List.mem_cons_self _ _)
      · rcases ih y h with h' | h'
        · exact Or.inl (List.mem_cons_of_mem _ h')
        · exact Or.inr h'
    · rw [if_neg h1] at hy
      rcases List.mem_cons.mp hy with h | h
      · exact Or.inr h
      · exact Or.inl h

theorem insert_by_key_pairwise {α : Type} (key : α → Str) (p : α) :
    ∀ (l : List α),
      List.Pairwise (fun x y => str_lt (key y) (key x) = false) l →
      List.Pairwise (fun x y => str_lt (key y) (key x) = false) (insert_by_key key p l) := by
  intro l
  induction l with
  | nil =>
    intro _
    simp [insert_by_key]
  | cons q l ih =>
    intro h
    rw [List.pairwise_cons] at h
    obtain ⟨hqall, hl⟩ := h
    rw [insert_by_key]
    by_cases h1 : str_lt (key q) (key p) = true
    · rw [if_pos h1]
      refine List.Pairwise.cons ?_ (ih hl)
      intro y hy
      rcases mem_insert_by_key key p l y hy with h' | h'
      · exact hqall y h'
      · rw [h']
        exact str_lt_asymm _ _ h1
    · rw [if_neg h1]
      have h1f : str_lt (key q) (key p) = false := by
        cases hb : str_lt (key q) (key p) with
        | false => rfl
        | true => exact absurd hb h1
      refine List.Pairwise.cons ?_ (List.Pairwise.cons hqall hl)
      intro y hy
      rcases List.mem_cons.mp hy with h' | h'
      · rw [h']; exact h1f
      · cases hb : str_lt (key y) (key p) with
        | false => rfl
        | true =>
          have := str_lt_trans_nlt_right _ _ _ hb h1f
          rw [hqall y h'] at this
          exact absurd this (by simp)

theorem sort_by_key_pairwise {α : Type} (key : α → Str) :
    ∀ (l : List α),
      List.Pairwise (fun x y => str_lt (key y) (key x) = false) (sort_by_key key l) := by
  intro l
  induction l with
  | nil => simp [sort_by_key]
  | cons p l ih => exact insert_by_key_pairwise key p _ ih

theorem filter_insert_by_key {α : Type} (key : α → Str) (p : α) (n : Str) :
    ∀ (l : List α),
      (insert_by_key key p l).filter (fun x => decide (key x = n)) =
        if key p = n then p :: l.filter (fun x => decide (key x = n))
        else l.filter (fun x => decide (key x = n)) := by
  intro l
  induction l with
  | nil =>
    by_cases hp : key p = n <;> simp [insert_by_key, hp]
  | cons q l ih =>
    rw [insert_by_key]
    by_cases h1 : str_lt (key q) (key p) = true
    · rw [if_pos h1]
      by_cases hp : key p = n
      · have hq : ¬(key q = n) := by
          intro hqn
          rw [show key q = key p from hqn.trans hp.symm, str_lt_irrefl] at h1
          exact absurd h1 (by simp)
        rw [if_pos hp]
        simp only [List.filter_cons, decide_eq_true_eq, hq, if_false]
        rw [ih, if_pos hp]
      · rw [if_neg hp]
        simp only [List.filter_cons, decide_eq_true_eq]
        rw [ih, if_neg hp]
    · rw [if_neg h1]
      by_cases hp : key p = n
      · rw [if_pos hp]
        simp [List.filter_cons, hp]
      · rw [if_neg hp]
        simp [List.filter_cons, hp]

theorem filter_sort_by_key {α : Type} (key : α → Str) (n : Str) :
    ∀ (l : List α),
      (sort_by_key key l).filter (fun x => decide (key x = n)) =
        l.filter (fun x => decide (key x = n)) := by
  intro l
  induction l with
  | nil => rfl
  | cons p l ih =>
    rw [sort_by_key, filter_insert_by_key]
    by_cases hp : key p = n
    · rw [if_pos hp, ih]
      simp [List.filter_cons, hp]
    · rw [if_neg hp, ih]
      simp [List.filter_cons, hp]

theorem dedup_by_key_aux_spec {α : Type} (key : α → Str) :
    ∀ (l : List α) (kept : α) (count : Nat),
      dedup_by_key_aux key kept count l =
        (count + (l.takeWhile (fun x => decide (key kept = key x))).length, kept) ::
          dedup_by_key key (l.dropWhile (fun x => decide (key kept = key x))) := by
  intro l
  induction l with
  | nil =>
    intro kept count
    simp [dedup_by_key_aux, dedup_by_key]
  | cons q l ih =>
    intro kept count
    rw [dedup_by_key_aux]
    by_cases h1 : key kept = key q
    · rw [if_pos h1]
      have hq : decide (key kept = key q) = true := by simp [h1]
      rw [List.takeWhile_cons, List.dropWhile_cons, hq]
      rw [ih kept (count + 1)]
      simp only [List.length_cons, if_true]
      congr 1
      congr 1
      omega
    · rw [if_neg h1]
      have hq : decide (key kept = key q) = false := by simp [h1]
      rw [List.takeWhile_cons, List.dropWhile_cons, hq]
      simp [dedup_by_key]

theorem mem_dedup_by_key_aux {α : Type} (key : α → Str) :
    ∀ (l : List α) (kept : α) (count : Nat) (x : Nat × α),
      x ∈ dedup_by_key_aux key kept count l → x.2 = kept ∨ x.2 ∈ l := by
  intro l
  induction l with
  | nil =>
    intro kept count x hx
    simp [dedup_by_key_aux] at hx
    exact Or.inl (by rw [hx])
  | cons q l ih =>
    intro kept count x hx
    rw [dedup_by_key_aux] at hx
    by_cases h1 : key kept = key q
    · rw [if_pos h1] at hx
      rcases ih kept (count + 1) x hx with h | h
      · exact Or.inl h
      · exact Or.inr (List.mem_cons_of_mem _ h)
    · rw [if_neg h1] at hx
      rcases List.mem_cons.mp hx with h | h
      · exact Or.inl (by rw [h])
      · rcases ih q 1 x h with h' | h'
        · exact Or.inr (h' ▸ List.mem_cons_self _ _)
        · exact Or.inr (List.mem_cons_of_mem _ h')

theorem mem_dedup_by_key {α : Type} (key : α → Str) (l : List α) (x : Nat × α)
    (hx : x ∈ dedup_by_key key l) : x.2 ∈ l := by
  cases l with
  | nil => simp [dedup_by_key] at hx
  | cons q l =>
    rcases mem_dedup_by_key_aux key l q 1 x hx with h | h
    · exact h ▸ List.mem_cons_self _ _
    · exact List.mem_cons_of_mem _ h

theorem filter_eq_takeWhile_sorted {α : Type} (key : α → Str) (n : Str) :
    ∀ (l : List α),
      List.Pairwise (fun x y => str_lt (key y) (key x) = false) l →
      (∀ y ∈ l, str_lt (key y) n = false) →
      l.filter (fun x => decide (key x = n)) = l.takeWhile (fun x => decide (n = key x)) := by
  intro l
  induction l with
  | nil => intro _ _; rfl
  | cons y l ih =>
    intro hsort hlb
    obtain ⟨hyall, hsort'⟩ := List.pairwise_cons.mp hsort
    rw [List.filter_cons, List.takeWhile_cons]
    by_cases hy : key y = n
    · have h1 : decide (key y = n) = true := by simp [hy]
      have h2 : decide (n = key y) = true := by simp [hy]
      rw [h1, h2]
      simp only [if_true]
      rw [ih hsort' (fun z hz => hlb z (List.mem_cons_of_mem _ hz))]
    · have h1 : decide (key y = n) = false := by simp [hy]
      have h2 : decide (n = key y) = false := by
        simp only [decide_eq_false_iff_not]
        exact fun h => hy h.symm
      rw [h1, h2]
      simp only [if_false, Bool.false_eq_true]
      have hij : str_lt n (key y) = true :=
        str_lt_connex (key y) n (hlb y (List.mem_cons_self _ _)) hy
      rw [List.filter_eq_nil_iff]
      intro z hz
      simp only [decide_eq_true_eq]
      intro hzn
      have hzy : str_lt (key z) (key y) = false := hyall z hz
      rw [hzn] at hzy
      rw [hzy] at hij
      exact absurd hij (by simp)

theorem dropWhile_keys_ne {α : Type} (key : α → Str) (n : Str) :
    ∀ (l : List α),
      List.Pairwise (fun x y => str_lt (key y) (key x) = false) l →
      (∀ y ∈ l, str_lt (key y) n = false) →
      ∀ y ∈ l.dropWhile (fun x => decide (n = key x)), key y ≠ n := by
  intro l
  induction l with
  | nil => intro _ _ y hy; simp at hy
  | cons q l ih =>
    intro hsort hlb
    obtain ⟨hqall, hsort'⟩ := List.pairwise_cons.mp hsort
    rw [List.dropWhile_cons]
    by_cases h1 : n = key q
    · have h2 : decide (n = key q) = true := by simp [h1]
      rw [h2]
      simp only [if_true]
      exact ih hsort' (fun z hz => hlb z (List.mem_cons_of_mem _ hz))
    · have h2 : decide (n = key q) = false := by simp [h1]
      rw [h2]
      simp only [if_false, Bool.false_eq_true]
      intro y hy
      rcases List.mem_cons.mp hy with h | h
      · rw [h]; exact fun hc => h1 hc.symm
      · intro hyn
        have hqn : str_lt n (key q) = true :=
          str_lt_connex (key q) n (hlb q (List.mem_cons_self _ _)) (fun hc => h1 hc.symm)
        have hzy : str_lt (key y) (key q) = false := hqall y h
        rw [hyn] at hzy
        rw [hzy] at hqn
        exact absurd hqn (by simp)

theorem dedup_by_key_filter {α : Type} (key : α → Str) :
    ∀ (l : List α),
      List.Pairwise (fun x y => str_lt (key y) (key x) = false) l →
      ∀ n,
        (dedup_by_key key l).filter (fun x => decide (key x.2 = n)) =
          match l.filter (fun x => decide (key x = n)) with
          | [] => []
          | p :: ps => [(ps.length + 1, p)] := by
  suffices H : ∀ (m : Nat) (l : List α), l.length ≤ m →
      List.Pairwise (fun x y => str_lt (key y) (key x) = false) l →
      ∀ n,
        (dedup_by_key key l).filter (fun x => decide (key x.2 = n)) =
          match l.filter (fun x => decide (key x = n)) with
          | [] => []
          | p :: ps => [(ps.length + 1, p)] by
    exact fun l hl n => H l.length l le_rfl hl n
  intro m
  induction m with
  | zero =>
    intro l hlen _ n
    rw [List.length_eq_zero.mp (Nat.le_zero.mp hlen)]
    simp [dedup_by_key]
  | succ m ihm =>
    intro l hlen hsort n
    cases l with
    | nil => simp [dedup_by_key]
    | cons q l' =>
      obtain ⟨hq_lb, hsort'⟩ := List.pairwise_cons.mp hsort
      rw [show dedup_by_key key (q :: l') = dedup_by_key_aux key q 1 l' from rfl,
        dedup_by_key_aux_spec, List.filter_cons]
      by_cases hq : key q = n
      · subst hq
        have hc : decide (key q = key q) = true := by simp
        rw [hc]
        simp only [if_true]
        have hdw : (dedup_by_key key
            (l'.dropWhile (fun x => decide (key q = key x)))).filter
              (fun x => decide (key x.2 = key q)) = [] := by
          rw [List.filter_eq_nil_iff]
          intro x hx
          simp only [decide_eq_true_eq]
          exact dropWhile_keys_ne key (key q) l' hsort' hq_lb x.2
            (mem_dedup_by_key key _ x hx)
        rw [hdw, List.filter_cons, hc]
        simp only [if_true]
        rw [filter_eq_takeWhile_sorted key (key q) l' hsort' hq_lb]
        congr 2
        omega
      · have hc : decide (key q = n) = false := by simp [hq]
        have hc2 : decide (key q = n) = false := hc
        rw [hc]
        simp only [if_false, Bool.false_eq_true]
        have hlen' : (l'.dropWhile (fun x => decide (key q = key x))).length ≤ m := by
          have h1 : (l'.dropWhile (fun x => decide (key q = key x))).length ≤ l'.length :=
            (List.dropWhile_sublist _).length_le
          simp only [List.length_cons] at hlen
          omega
        have hsortdw :
            List.Pairwise (fun x y => str_lt (key y) (key x) = false)
              (l'.dropWhile (fun x => decide (key q = key x))) :=
          List.Pairwise.sublist (List.dropWhile_sublist _) hsort'
        rw [ihm _ hlen' hsortdw n]
        have hfeq : (l'.dropWhile (fun x => decide (key q = key x))).filter
            (fun x => decide (key x = n)) = l'.filter (fun x => decide (key x = n)) := by
          conv_rhs => rw [← List.takeWhile_append_dropWhile
            (p := fun x => decide (key q = key x)) (l := l')]
          rw [List.filter_append]
          have htw : (l'.takeWhile (fun x => decide (key q = key x))).filter
              (fun x => decide (key x = n)) = [] := by
            rw [List.filter_eq_nil_iff]
            intro x hx
            simp only [decide_eq_true_eq]
            have := List.mem_takeWhile_imp hx
            simp only [decide_eq_true_eq] at this
            rw [← this]
            exact hq
          rw [htw, List.nil_append]
        rw [hfeq, List.filter_cons, hc2]
        simp

/-- Warnings logged by `Functions::load`: a provider or override name
defined more than once (with its count), and an override with no matching
provider. -/
inductive Warning where
  | duplicate_provider (name : Str) (count : Nat)
  | duplicate_function (name : Str) (count : Nat)
  | function_without_provider (name : Str)
deriving DecidableEq

/-- The duplicate-provider warning of the first `inspect` in
`Functions::load`, emitted when the kept entry's run count exceeds one. -/
def provider_warnings (count : Nat) (p : Provider) : List Warning :=
  if count > 1 then [.duplicate_provider p.name count] else []

/-- The warnings of the second `inspect` in `Functions::load`: a duplicate
count warning, and a missing-provider warning checked against the processed
provider list. -/
def function_warnings (provs : List Provider) (count : Nat)
    (f : ChatCompletionFunctions) : List Warning :=
  (if count > 1 then [.duplicate_function f.name count] else []) ++
    (if provs.any (fun p => decide (p.name = f.name)) then []
     else [.function_without_provider f.name])

/-- `collect::<Result<_, _>>()` over the shellexpand results of one
provider's argument list: the first failure fails the whole list. -/
def expand_args (expand : Str → Except Unit Str) : List Str → Except Unit (List Str)
  | [] => .ok []
  | a :: rest =>
    match expand a with
    | .error e => .error e
    | .ok b => (expand_args expand rest).map (fun bs => b :: bs)

/-- The provider half of `Functions::load` after sorting and deduplication:
per retained entry, log the duplicate warning if any, then expand the
argument list; the first expansion failure aborts (with the warnings logged
so far), mirroring the fused lazy iterator chain ending in
`collect::<Result<_, _>>()?`. -/
def process_providers (expand : Str → Except Unit Str) :
    List (Nat × Provider) → List Warning × Except Unit (List Provider)
  | [] => ([], .ok [])
  | (count, p) :: rest =>
    let ws := provider_warnings count p
    match expand_args expand p.args with
    | .error e => (ws, .error e)
    | .ok args =>
      let (ws', r) := process_providers expand rest
      (ws ++ ws', r.map (fun l => { p with args := args } :: l))

/-- The override half of `Functions::load` after sorting and deduplication:
per retained entry, log the warnings and keep the entry. -/
def process_functions (provs : List Provider) :
    List (Nat × ChatCompletionFunctions) → List Warning × List ChatCompletionFunctions
  | [] => ([], [])
  | (count, f) :: rest =>
    let (ws, fs) := process_functions provs rest
    (function_warnings provs count f ++ ws, f :: fs)

/-- The pure core of `Functions::load` in `src/functions.rs`: deserialization
and configuration location are external; given the deserialized provider and
override lists and the shellexpand oracle, stable-sort each list by name,
deduplicate keeping the first occurrence of each name with a run count, log
one duplicate warning per name with count above one, expand provider
arguments (any failure fails the load), and warn about overrides with no
matching provider.  Returns the warnings logged together with the result. -/
def load (expand : Str → Except Unit Str) (provider : List Provider)
    (function : List ChatCompletionFunctions) : List Warning × Except Unit Functions :=
  let (w1, r) :=
    process_providers expand (dedup_by_key Provider.name (sort_by_key Provider.name provider))
  match r with
  | .error e => (w1, .error e)
  | .ok provs =>
    let (w2, funcs) := process_functions provs
      (dedup_by_key ChatCompletionFunctions.name
        (sort_by_key ChatCompletionFunctions.name function))
    (w1 ++ w2, .ok { provider := provs, function := funcs })

/-- Expansion with a total oracle, as applied to one provider. -/
def expand_provider (g : Str → Str) (p : Provider) : Provider :=
  { p with args := p.args.map g }

theorem expand_args_total (g : Str → Str) :
    ∀ args : List Str, expand_args (fun s => .ok (g s)) args = .ok (args.map g) := by
  intro args
  induction args with
  | nil => rfl
  | cons a rest ih => simp [expand_args, ih, Except.map]

theorem process_providers_total (g : Str → Str) :
    ∀ items : List (Nat × Provider),
      process_providers (fun s => .ok (g s)) items =
        (items.flatMap (fun x => provider_warnings x.1 x.2),
         .ok (items.map (fun x => expand_provider g x.2))) := by
  intro items
  induction items with
  | nil => rfl
  | cons x rest ih =>
    obtain ⟨count, p⟩ := x
    simp [process_providers, expand_args_total, ih, expand_provider, Except.map]

theorem process_functions_spec (provs : List Provider) :
    ∀ items : List (Nat × ChatCompletionFunctions),
      process_functions provs items =
        (items.flatMap (fun x => function_warnings provs x.1 x.2),
         items.map Prod.snd) := by
  intro items
  induction items with
  | nil => rfl
  | cons x rest ih =>
    obtain ⟨count, f⟩ := x
    simp [process_functions, ih]

/-- Does a warning report a duplicate provider with the given name? -/
def is_dup_provider_warning (n : Str) : Warning → Bool
  | .duplicate_provider m _ => decide (m = n)
  | _ => false

/-- Does a warning report a duplicate override with the given name? -/
def is_dup_function_warning (n : Str) : Warning → Bool
  | .duplicate_function m _ => decide (m = n)
  | _ => false

theorem countP_flatMap {β : Type} (f : β → List Warning) (p : Warning → Bool) :
    ∀ l : List β, (l.flatMap f).countP p = (l.map (fun x => (f x).countP p)).sum := by
  intro l
  induction l with
  | nil => rfl
  | cons x rest ih =>
    rw [List.flatMap_cons, List.countP_append, ih]
    simp

theorem sum_map_eq_sum_filter {β : Type} (f : β → Nat) (q : β → Bool) :
    ∀ l : List β, (∀ x ∈ l, q x = false → f x = 0) →
      (l.map f).sum = ((l.filter q).map f).sum := by
  intro l
  induction l with
  | nil => intro _; rfl
  | cons x rest ih =>
    intro h
    rw [List.filter_cons]
    cases hq : q x with
    | true =>
      simp only [if_true]
      rw [List.map_cons, List.map_cons, List.sum_cons, List.sum_cons,
        ih (fun y hy hqy => h y (List.mem_cons_of_mem _ hy) hqy)]
    | false =>
      simp only [Bool.false_eq_true, if_false]
      rw [List.map_cons, List.sum_cons, h x (List.mem_cons_self _ _) hq,
        ih (fun y hy hqy => h y (List.mem_cons_of_mem _ hy) hqy)]
      omega

/-- The provider entries retained by `load`: sorted, deduplicated, with run
counts. -/
def loaded_provider_items (ps : List Provider) : List (Nat × Provider) :=
  dedup_by_key Provider.name (sort_by_key Provider.name ps)

/-- The override entries retained by `load`: sorted, deduplicated, with run
counts. -/
def loaded_function_items (fs : List ChatCompletionFunctions) :
    List (Nat × ChatCompletionFunctions) :=
  dedup_by_key ChatCompletionFunctions.name (sort_by_key ChatCompletionFunctions.name fs)

theorem provider_items_filter (ps : List Provider) (n : Str) :
    (loaded_provider_items ps).filter (fun x => decide (x.2.name = n)) =
      match ps.filter (fun p => decide (p.name = n)) with
      | [] => []
      | p :: rest => [(rest.length + 1, p)] := by
  unfold loaded_provider_items
  rw [dedup_by_key_filter Provider.name _ (sort_by_key_pairwise Provider.name ps) n,
    filter_sort_by_key]
  cases ps.filter (fun p => decide (p.name = n)) <;> rfl

theorem function_items_filter (fs : List ChatCompletionFunctions) (n : Str) :
    (loaded_function_items fs).filter (fun x => decide (x.2.name = n)) =
      match fs.filter (fun f => decide (f.name = n)) with
      | [] => []
      | f :: rest => [(rest.length + 1, f)] := by
  unfold loaded_function_items
  rw [dedup_by_key_filter ChatCompletionFunctions.name _
    (sort_by_key_pairwise ChatCompletionFunctions.name fs) n, filter_sort_by_key]
  cases fs.filter (fun f => decide (f.name = n)) <;> rfl

theorem load_total (g : Str → Str) (ps : List Provider)
    (fs : List ChatCompletionFunctions) :
    load (fun s => .ok (g s)) ps fs =
      ((loaded_provider_items ps).flatMap (fun x => provider_warnings x.1 x.2) ++
         (loaded_function_items fs).flatMap
           (fun x => function_warnings
             ((loaded_provider_items ps).map (fun y => expand_provider g y.2)) x.1 x.2),
       .ok { provider := (loaded_provider_items ps).map (fun y => expand_provider g y.2)
             function := (loaded_function_items fs).map Prod.snd }) := by
  simp [load, process_providers_total, process_functions_spec,
    loaded_provider_items, loaded_function_items]

theorem provider_warnings_countP (n : Str) (count : Nat) (p : Provider) :
    (provider_warnings count p).countP (is_dup_provider_warning n) =
      if p.name = n ∧ 2 ≤ count then 1 else 0 := by
  rw [provider_warnings]
  by_cases hc : count > 1
  · rw [if_pos hc]
    by_cases hn : p.name = n
    · rw [if_pos ⟨hn, hc⟩]
      simp [List.countP_cons, is_dup_provider_warning, hn, List.countP_nil]
    · rw [if_neg (fun h => hn h.1)]
      simp [List.countP_cons, is_dup_provider_warning, hn, List.countP_nil]
  · rw [if_neg hc, if_neg (fun h => hc h.2)]
    rfl

theorem function_warnings_dup_countP (provs : List Provider) (n : Str) (count : Nat)
    (f : ChatCompletionFunctions) :
    (function_warnings provs count f).countP (is_dup_function_warning n) =
      if f.name = n ∧ 2 ≤ count then 1 else 0 := by
  rw [function_warnings, List.countP_append]
  have horph : (if provs.any (fun p => decide (p.name = f.name)) then []
      else [Warning.function_without_provider f.name]).countP
        (is_dup_function_warning n) = 0 := by
    by_cases ha : provs.any (fun p => decide (p.name = f.name))
    · rw [if_pos ha]; rfl
    · rw [if_neg ha]
      simp [List.countP_cons, is_dup_function_warning, List.countP_nil]
  rw [horph]
  by_cases hc : count > 1
  · rw [if_pos hc]
    by_cases hn : f.name = n
    · rw [if_pos ⟨hn, hc⟩]
      simp [List.countP_cons, is_dup_function_warning, hn, List.countP_nil]
    · rw [if_neg (fun h => hn h.1)]
      simp [List.countP_cons, is_dup_function_warning, hn, List.countP_nil]
  · rw [if_neg hc, if_neg (fun h => hc h.2)]
    rfl

theorem function_warnings_no_dup_provider (provs : List Provider) (n : Str)
    (count : Nat) (f : ChatCompletionFunctions) :
    (function_warnings provs count f).countP (is_dup_provider_warning n) = 0 := by
  rw [function_warnings, List.countP_append]
  have h1 : (if count > 1 then [Warning.duplicate_function f.name count]
      else []).countP (is_dup_provider_warning n) = 0 := by
    by_cases hc : count > 1
    · rw [if_pos hc]; simp [List.countP_cons, is_dup_provider_warning, List.countP_nil]
    · rw [if_neg hc]; rfl
  have h2 : (if provs.any (fun p => decide (p.name = f.name)) then []
      else [Warning.function_without_provider f.name]).countP
        (is_dup_provider_warning n) = 0 := by
    by_cases ha : provs.any (fun p => decide (p.name = f.name))
    · rw [if_pos ha]; rfl
    · rw [if_neg ha]; simp [List.countP_cons, is_dup_provider_warning, List.countP_nil]
  rw [h1, h2]

theorem provider_warnings_no_dup_function (n : Str) (count : Nat) (p : Provider) :
    (provider_warnings count p).countP (is_dup_function_warning n) = 0 := by
  rw [provider_warnings]
  by_cases hc : count > 1
  · rw [if_pos hc]; simp [List.countP_cons, is_dup_function_warning, List.countP_nil]
  · rw [if_neg hc]; rfl

theorem filter_ne_nil_iff {β : Type} (p : β → Bool) (l : List β) :
    l.filter p ≠ [] ↔ ∃ x ∈ l, p x = true := by
  rw [Ne, List.filter_eq_nil_iff]
  push_neg
  simp

/-- C8 (confirmed): loading a configuration keeps, for every name, exactly
the first occurrence among its providers (with arguments expanded) and among
its overrides, logs exactly one duplicate warning for a name defined more
than once (none otherwise), succeeds even when an override matches no
provider, and logs the missing-provider warning exactly for override names
with no provider.  The expansion oracle is an arbitrary total expansion
(resolution failures, which fail the whole load, are out of this claim's
scope). -/
theorem load_keeps_first_occurrence_and_warns (g : Str → Str) (ps : List Provider)
    (fs : List ChatCompletionFunctions) (n : Str) :
    ∃ F : Functions,
      (load (fun s => .ok (g s)) ps fs).2 = .ok F ∧
      (F.provider.filter (fun p => decide (p.name = n)) =
        match ps.filter (fun p => decide (p.name = n)) with
        | [] => []
        | p :: _ => [expand_provider g p]) ∧
      ((load (fun s => .ok (g s)) ps fs).1.countP (is_dup_provider_warning n) =
        if 2 ≤ (ps.filter (fun p => decide (p.name = n))).length then 1 else 0) ∧
      (F.function.filter (fun f => decide (f.name = n)) =
        match fs.filter (fun f => decide (f.name = n)) with
        | [] => []
        | f :: _ => [f]) ∧
      ((load (fun s => .ok (g s)) ps fs).1.countP (is_dup_function_warning n) =
        if 2 ≤ (fs.filter (fun f => decide (f.name = n))).length then 1 else 0) ∧
      (Warning.function_without_provider n ∈ (load (fun s => .ok (g s)) ps fs).1 ↔
        fs.filter (fun f => decide (f.name = n)) ≠ [] ∧
        ps.filter (fun p => decide (p.name = n)) = []) := by
  have hprovfilter :
      ((loaded_provider_items ps).map (fun y => expand_provider g y.2)).filter
          (fun p => decide (p.name = n)) =
        match ps.filter (fun p => decide (p.name = n)) with
        | [] => []
        | p :: _ => [expand_provider g p] := by
    rw [List.filter_map]
    rw [show ((fun p => decide (p.name = n)) ∘ (fun y : Nat × Provider =>
      expand_provider g y.2)) = (fun x : Nat × Provider => decide (x.2.name = n)) from rfl]
    rw [provider_items_filter ps n]
    cases ps.filter (fun p => decide (p.name = n)) <;> rfl
  have hfunfilter :
      ((loaded_function_items fs).map Prod.snd).filter (fun f => decide (f.name = n)) =
        match fs.filter (fun f => decide (f.name = n)) with
        | [] => []
        | f :: _ => [f] := by
    rw [List.filter_map]
    rw [show ((fun f : ChatCompletionFunctions => decide (f.name = n)) ∘
      (Prod.snd : Nat × ChatCompletionFunctions → ChatCompletionFunctions)) =
      (fun x : Nat × ChatCompletionFunctions => decide (x.2.name = n)) from rfl]
    rw [function_items_filter fs n]
    cases fs.filter (fun f => decide (f.name = n)) <;> rfl
  have hload1 : (load (fun s => .ok (g s)) ps fs).1 =
      (loaded_provider_items ps).flatMap (fun x => provider_warnings x.1 x.2) ++
        (loaded_function_items fs).flatMap
          (fun x => function_warnings
            ((loaded_provider_items ps).map (fun y => expand_provider g y.2)) x.1 x.2) := by
    rw [load_total]
  refine ⟨{ provider := (loaded_provider_items ps).map (fun y => expand_provider g y.2)
            function := (loaded_function_items fs).map Prod.snd }, ?_, hprovfilter, ?_,
    hfunfilter, ?_, ?_⟩
  · rw [load_total]
  · -- exactly one duplicate-provider warning per duplicated name
    rw [hload1, List.countP_append]
    have hw2 : ((loaded_function_items fs).flatMap
        (fun x => function_warnings
          ((loaded_provider_items ps).map (fun y => expand_provider g y.2)) x.1 x.2)).countP
          (is_dup_provider_warning n) = 0 := by
      rw [countP_flatMap]
      apply List.sum_eq_zero
      intro v hv
      rcases List.mem_map.mp hv with ⟨y, _, rfl⟩
      exact function_warnings_no_dup_provider _ _ _ _
    rw [hw2, Nat.add_zero, countP_flatMap,
      sum_map_eq_sum_filter _ (fun x => decide (x.2.name = n)) _ ?_]
    · rw [provider_items_filter ps n]
      cases hx : ps.filter (fun p => decide (p.name = n)) with
      | nil => simp
      | cons p rest =>
        have hname : p.name = n := by
          have hm : p ∈ ps.filter (fun p => decide (p.name = n)) := by
            rw [hx]; exact List.mem_cons_self _ _
          simpa using (List.mem_filter.mp hm).2
        simp only [List.map_cons, List.map_nil, List.sum_cons, List.sum_nil,
          List.length_cons, provider_warnings_countP]
        by_cases hr : 2 ≤ rest.length + 1
        · rw [if_pos ⟨hname, hr⟩, if_pos hr]
          rfl
        · rw [if_neg (fun hc => hr hc.2), if_neg hr]
          rfl
    · intro x _ hq
      simp only [decide_eq_false_iff_not] at hq
      rw [provider_warnings_countP]
      exact if_neg (fun hc => hq hc.1)
  · -- exactly one duplicate-function warning per duplicated name
    rw [hload1, List.countP_append]
    have hw1 : ((loaded_provider_items ps).flatMap
        (fun x => provider_warnings x.1 x.2)).countP (is_dup_function_warning n) = 0 := by
      rw [countP_flatMap]
      apply List.sum_eq_zero
      intro v hv
      rcases List.mem_map.mp hv with ⟨y, _, rfl⟩
      exact provider_warnings_no_dup_function _ _ _
    rw [hw1, Nat.zero_add, countP_flatMap,
      sum_map_eq_sum_filter _ (fun x => decide (x.2.name = n)) _ ?_]
    · rw [function_items_filter fs n]
      cases hx : fs.filter (fun f => decide (f.name = n)) with
      | nil => simp
      | cons f rest =>
        have hname : f.name = n := by
          have hm : f ∈ fs.filter (fun f => decide (f.name = n)) := by
            rw [hx]; exact List.mem_cons_self _ _
          simpa using (List.mem_filter.mp hm).2
        simp only [List.map_cons, List.map_nil, List.sum_cons, List.sum_nil,
          List.length_cons, function_warnings_dup_countP]
        by_cases hr : 2 ≤ rest.length + 1
        · rw [if_pos ⟨hname, hr⟩, if_pos hr]
          rfl
        · rw [if_neg (fun hc => hr hc.2), if_neg hr]
          rfl
    · intro x _ hq
      simp only [decide_eq_false_iff_not] at hq
      rw [function_warnings_dup_countP]
      exact if_neg (fun hc => hq hc.1)
  · -- missing-provider warning exactly for orphan override names
    rw [hload1, List.mem_append]
    have hw1 : Warning.function_without_provider n ∉
        (loaded_provider_items ps).flatMap (fun x => provider_warnings x.1 x.2) := by
      intro hmem
      rcases List.mem_flatMap.mp hmem with ⟨x, _, hw⟩
      rw [provider_warnings] at hw
      by_cases hc : x.1 > 1
      · rw [if_pos hc] at hw
        rcases List.mem_cons.mp hw with h | h
        · exact Warning.noConfusion h
        · simp at h
      · rw [if_neg hc] at hw
        simp at hw
    rw [or_iff_right hw1, List.mem_flatMap]
    have hper : ∀ (x : Nat × ChatCompletionFunctions),
        (Warning.function_without_provider n ∈
          function_warnings ((loaded_provider_items ps).map (fun y => expand_provider g y.2))
            x.1 x.2) ↔
        (x.2.name = n ∧
          ((loaded_provider_items ps).map (fun y => expand_provider g y.2)).any
            (fun p => decide (p.name = n)) = false) := by
      intro x
      rw [function_warnings, List.mem_append]
      constructor
      · rintro (h | h)
        · by_cases hc : x.1 > 1
          · rw [if_pos hc] at h
            rcases List.mem_cons.mp h with h | h
            · exact Warning.noConfusion h
            · simp at h
          · rw [if_neg hc] at h
            simp at h
        · by_cases ha : ((loaded_provider_items ps).map
              (fun y => expand_provider g y.2)).any (fun p => decide (p.name = x.2.name))
          · rw [if_pos ha] at h
            simp at h
          · rw [if_neg ha] at h
            rcases List.mem_cons.mp h with h | h
            · have hn : n = x.2.name := by
                injection h
              refine ⟨hn.symm, ?_⟩
              rw [← hn] at ha
              cases hb : ((loaded_provider_items ps).map
                  (fun y => expand_provider g y.2)).any (fun p => decide (p.name = n)) with
              | false => rfl
              | true => exact absurd hb ha
            · simp at h
      · rintro ⟨hfn, hany⟩
        right
        rw [hfn] at *
        rw [if_neg (fun hc => by rw [hany] at hc; exact Bool.false_ne_true hc)]
        rw [hfn]
        exact List.mem_cons_self _ _
    constructor
    · rintro ⟨x, hx, hw⟩
      obtain ⟨hfn, hany⟩ := (hper x).mp hw
      constructor
      · -- some override named n exists
        have hne : (loaded_function_items fs).filter
            (fun x => decide (x.2.name = n)) ≠ [] := by
          rw [filter_ne_nil_iff]
          exact ⟨x, hx, by simp [hfn]⟩
        rw [function_items_filter fs n] at hne
        intro hc
        rw [hc] at hne
        exact hne rfl
      · -- no provider named n
        cases hx2 : ps.filter (fun p => decide (p.name = n)) with
        | nil => rfl
        | cons p rest =>
          exfalso
          have : expand_provider g p ∈ ((loaded_provider_items ps).map
              (fun y => expand_provider g y.2)).filter (fun p => decide (p.name = n)) := by
            rw [hprovfilter, hx2]
            exact List.mem_cons_self _ _
          have hmem := (List.mem_filter.mp this).1
          have hpn : (expand_provider g p).name = n := by
            simpa using (List.mem_filter.mp this).2
          have : ((loaded_provider_items ps).map (fun y => expand_provider g y.2)).any
              (fun p => decide (p.name = n)) = true :=
            List.any_eq_true.mpr ⟨expand_provider g p, hmem, by simp [hpn]⟩
          rw [hany] at this
          exact Bool.false_ne_true this
    · rintro ⟨hfne, hpnil⟩
      -- produce the override item named n
      have hne : (loaded_function_items fs).filter (fun x => decide (x.2.name = n)) ≠ [] := by
        rw [function_items_filter fs n]
        cases hx2 : fs.filter (fun f => decide (f.name = n)) with
        | nil => exact absurd hx2 hfne
        | cons f rest => exact fun hc => List.noConfusion hc
      rcases (filter_ne_nil_iff _ _).mp hne with ⟨x, hx, hxn⟩
      refine ⟨x, hx, (hper x).mpr ⟨by simpa using hxn, ?_⟩⟩
      cases hb : ((loaded_provider_items ps).map (fun y => expand_provider g y.2)).any
          (fun p => decide (p.name = n)) with
      | false => rfl
      | true =>
        exfalso
        rcases List.any_eq_true.mp hb with ⟨p, hpmem, hpn⟩
        have : p ∈ ((loaded_provider_items ps).map (fun y => expand_provider g y.2)).filter
            (fun p => decide (p.name = n)) := List.mem_filter.mpr ⟨hpmem, hpn⟩
        rw [hprovfilter, hpnil] at this
        simp at this

/-- Witness for C8: a configuration with two providers both named "x" and an
override "y" with no provider logs exactly one duplicate warning for "x" and
the missing-provider warning for "y" (and, per the theorem, still loads
successfully). -/
theorem load_keeps_first_occurrence_and_warns_witness :
    (load (fun s => .ok ((fun s : Str => s) s))
        [{ name := lit "x", command := lit "curl", args := [lit "-s"], safe := false },
         { name := lit "x", command := lit "wget", args := [], safe := true }]
        [{ name := lit "y" }]).1.countP (is_dup_provider_warning (lit "x")) = 1 ∧
    Warning.function_without_provider (lit "y") ∈
      (load (fun s => .ok ((fun s : Str => s) s))
        [{ name := lit "x", command := lit "curl", args := [lit "-s"], safe := false },
         { name := lit "x", command := lit "wget", args := [], safe := true }]
        [{ name := lit "y" }]).1 := by
  obtain ⟨F, _, _, hcount, _, _, _⟩ :=
    load_keeps_first_occurrence_and_warns (fun s : Str => s)
      [{ name := lit "x", command := lit "curl", args := [lit "-s"], safe := false },
       { name := lit "x", command := lit "wget", args := [], safe := true }]
      [{ name := lit "y" }] (lit "x")
  obtain ⟨F2, _, _, _, _, _, horph⟩ :=
    load_keeps_first_occurrence_and_warns (fun s : Str => s)
      [{ name := lit "x", command := lit "curl", args := [lit "-s"], safe := false },
       { name := lit "x", command := lit "wget", args := [], safe := true }]
      [{ name := lit "y" }] (lit "y")
  refine ⟨hcount.trans (by rfl), horph.mpr ⟨?_, rfl⟩⟩
  intro h
  exact List.noConfusion
    (h : ([{ name := lit "y" }] : List ChatCompletionFunctions) = [])

end Ellie
